import Mathlib

/-!
# py-reqforge — verification of the specification parsing and reconciliation core

Shallow embedding of the parsing / reconciliation / export core of the
py-reqforge frontend (`App.tsx`, `ExportManager.tsx`, `api/client.ts`).

Modelling conventions:
* TypeScript strings are Lean `String`s; character-level operations work on
  `String.data : List Char`.
* The JavaScript regular expressions of the source are translated into
  explicit scanning functions with the same leftmost-match semantics.
* Optional TS fields (`hash?`, `fullName?`) become `Option String`;
  JavaScript truthiness of strings (`""` is falsy) is modelled explicitly.
* JS `Map` built from a list of key/value pairs keeps the *last* binding of a
  key; JS object key lookup is lookup of the unique key among the entries.
* The `async` handlers of `App.tsx` are embedded as pure state-transition
  functions; the external resolver's response is an explicit oracle argument
  of each operation, with a separate operation constructor for the failure
  (`catch`) path of each handler.
* Advisory resolver fields (`conflicts`, `warnings`, `resolution_time`) are
  never read by the embedded logic and are omitted from the record.
-/

/-- `Package` from `App.tsx` / `ExportManager.tsx`. -/
structure Package where
  name : String
  version : String
  isDependency : Bool
  hash : Option String := none
  fullName : Option String := none
deriving Repr, DecidableEq

/-- `exportFormat: 'standard' | 'pinned' | 'loose'`. -/
inductive ExportFormat where
  | standard
  | pinned
  | loose
deriving Repr, DecidableEq

/-- `Settings` from `App.tsx`. -/
structure Settings where
  includeHashes : Bool
  customIndex : String
  autoResolve : Bool
  showDependencies : Bool
  exportFormat : ExportFormat
deriving Repr, DecidableEq

/-- The initial settings of `App.tsx` (`useState<Settings>({...})`). -/
def defaultSettings : Settings :=
  { includeHashes := false
    customIndex := ""
    autoResolve := true
    showDependencies := true
    exportFormat := .standard }

/-- `ResolvedPackage` from `api/client.ts` (only the digest is read). -/
structure ResolvedPackage where
  version : String
  sha256_hash : Option String := none
deriving Repr, DecidableEq

/-- `DependencyTree` node from `api/client.ts`. -/
inductive DepTree where
  | node (name : String) (version : String) (dependencies : List DepTree)

/-- The `name` field of a tree node. -/
def DepTree.name : DepTree → String
  | .node n _ _ => n

/-- `DependencyResolution` from `api/client.ts`; `packages` and
`resolved_packages` are entry lists of JS objects (unique keys, in entry
order), `tree` the list of root nodes.  Advisory fields are omitted. -/
structure Resolution where
  packages : List (String × String)
  resolved_packages : List (String × ResolvedPackage) := []
  tree : List DepTree := []

/-! ## JavaScript string primitives, on `List Char` -/

/-- `c` is one of the comparison-operator characters of the class
`[>=<~!]` used by the parsing regexes. -/
def isOpChar (c : Char) : Bool :=
  c == '>' || c == '=' || c == '<' || c == '~' || c == '!'

/-- A lowercase-hex character, the class `[a-f0-9]` of the hash regex. -/
def isHexLower (c : Char) : Bool :=
  ('a' ≤ c && c ≤ 'f') || ('0' ≤ c && c ≤ '9')

/-- `String.prototype.trim` (whitespace restricted to the ASCII class
recognised by `Char.isWhitespace`). -/
def trimChars (l : List Char) : List Char :=
  ((l.dropWhile Char.isWhitespace).reverse.dropWhile Char.isWhitespace).reverse

/-- `String.prototype.split(c)`: JS semantics, `"".split(c) = [""]`. -/
def splitChar (c : Char) : List Char → List (List Char)
  | [] => [[]]
  | x :: xs =>
    match splitChar c xs with
    | [] => [[]]
    | r :: rs => if x = c then [] :: r :: rs else (x :: r) :: rs

/-- `Array.prototype.join('\n')` restricted to the single separator the
export code uses. -/
def joinLinesChar : List (List Char) → List Char
  | [] => []
  | [l] => l
  | l :: ls => l ++ '\n' :: joinLinesChar ls

/-- Index of the first occurrence of `pat` in `l`, if any. -/
def firstOccur (pat : List Char) : List Char → Option Nat
  | [] => if pat.isEmpty then some 0 else none
  | c :: rest =>
    if pat.isPrefixOf (c :: rest) then some 0
    else (firstOccur pat rest).map (· + 1)

/-- Worker for `normJoinLines`, structurally recursive on a fuel bounded
below by the list length. -/
def normJoinLinesAux : Nat → List Char → List Char
  | _, [] => []
  | 0, l => l
  | fuel + 1, c :: rest =>
    if c = '\\' then
      let w := rest.takeWhile Char.isWhitespace
      if w.contains '\n' then ' ' :: normJoinLinesAux fuel (rest.drop w.length)
      else c :: normJoinLinesAux fuel rest
    else c :: normJoinLinesAux fuel rest

/-- The global replace of regex `\\\s*\n\s*` by a space: a backslash
followed by a whitespace run containing a newline is collapsed (with the
whole run) to a single space. -/
def normJoinLines (l : List Char) : List Char :=
  normJoinLinesAux l.length l

/-- Worker for `normTrailingBackslash`, structurally recursive on a fuel
bounded below by the list length. -/
def normTrailingBackslashAux : Nat → List Char → List Char
  | _, [] => []
  | 0, l => l
  | fuel + 1, c :: rest =>
    if c = '\\' then
      let w := rest.takeWhile Char.isWhitespace
      let rest2 := rest.drop w.length
      if rest2.isEmpty then [' ']
      else
        match ((List.range w.length).filter (fun i => w.getD i ' ' = '\n')).getLast? with
        | some j => ' ' :: normTrailingBackslashAux fuel (rest.drop j)
        | none => c :: normTrailingBackslashAux fuel rest
    else c :: normTrailingBackslashAux fuel rest

/-- The multiline (gm) replace of regex `\\\s*$` by a space: a backslash
plus following whitespace is collapsed to a space when it reaches a line end
(`$` is zero-width, so the newline itself is kept). -/
def normTrailingBackslash (l : List Char) : List Char :=
  normTrailingBackslashAux l.length l

/-- The capture of the line match against regex `--hash=sha256:([a-f0-9]+)`: at the first
position where the literal is followed by at least one lowercase-hex
character, capture the maximal hex run. -/
def hashCapture : List Char → Option (List Char)
  | [] => none
  | c :: rest =>
    let pat := "--hash=sha256:".data
    if pat.isPrefixOf (c :: rest) then
      let hex := ((c :: rest).drop pat.length).takeWhile isHexLower
      if hex.isEmpty then hashCapture rest else some hex
    else hashCapture rest

/-- The replace of regex `\s*--hash=.*$` by the empty string: everything from the whitespace run
preceding the first `--hash=` to the end of the line is removed (lines fed
to this never contain a newline). -/
def dropHashSuffix (l : List Char) : List Char :=
  match firstOccur "--hash=".data l with
  | none => l
  | some j => ((l.take j).reverse.dropWhile Char.isWhitespace).reverse

/-- The match against regex `^([^>=<~!]+)([>=<~!].*)$`: succeeds iff the
string has a nonempty operator-free head followed by a nonempty tail
starting with an operator character; returns the two groups. -/
def specSplit (l : List Char) : Option (List Char × List Char) :=
  let n := l.takeWhile (fun c => !isOpChar c)
  let r := l.drop n.length
  if n.isEmpty || r.isEmpty then none else some (n, r)

/-- The replace of regex `[>=<~!=]+` by the empty string: remove the first (leftmost,
maximal) run of operator characters. -/
def replaceFirstOpRun : List Char → List Char
  | [] => []
  | c :: rest => if isOpChar c then rest.dropWhile isOpChar
                 else c :: replaceFirstOpRun rest

/-! ## Specification Parser (`parseRequirementsContent`, App.tsx) -/

/-- Parse one (already filtered) manifest line into a `Package`, following
the body of the `lines.map` callback of `parseRequirementsContent`. -/
def parseReqLine (line : List Char) : Package :=
  let hash : Option String := (hashCapture line).map List.asString
  let cleanLine := trimChars (dropHashSuffix line)
  let packageSpec := trimChars (cleanLine.takeWhile (fun c => !(c == ';')))
  match specSplit packageSpec with
  | some (n, vspec) =>
    let fullName := trimChars n
    let versionSpec := trimChars vspec
    let version := replaceFirstOpRun versionSpec
    let basePackageName :=
      if fullName.contains '[' then fullName.takeWhile (fun c => !(c == '[')) else fullName
    { name := basePackageName.asString
      version := version.asString
      isDependency := false
      hash := hash
      fullName := some fullName.asString }
  | none =>
    let fullName := packageSpec
    let basePackageName :=
      if fullName.contains '[' then fullName.takeWhile (fun c => !(c == '[')) else fullName
    { name := basePackageName.asString
      version := "latest"
      isDependency := false
      hash := hash
      fullName := some fullName.asString }

/-- `parseRequirementsContent` from `App.tsx`: normalize continuation
lines, split into lines, drop blank/comment/option lines, parse each line,
drop records with an empty name. -/
def parseRequirementsContent (content : String) : List Package :=
  let normalizedContent := normTrailingBackslash (normJoinLines content.data)
  let lines := (splitChar '\n' normalizedContent).filter (fun line =>
    let t := trimChars line
    !t.isEmpty && !(['#'].isPrefixOf t) && !(['-', '-'].isPrefixOf t))
  (lines.map parseReqLine).filter (fun pkg => !(pkg.name == ""))

/-! ## Mock dependency table (`addDependencies`, App.tsx) -/

/-- The hardcoded `mockDependencies` table of `addDependencies`. -/
def mockDependencies (packageName : String) : List String :=
  if packageName == "django" then ["sqlparse", "asgiref", "pytz"]
  else if packageName == "flask" then ["werkzeug", "jinja2", "click", "itsdangerous"]
  else if packageName == "requests" then ["urllib3", "certifi", "charset-normalizer", "idna"]
  else if packageName == "fastapi" then ["pydantic", "starlette", "typing-extensions"]
  else if packageName == "pandas" then ["numpy", "python-dateutil", "pytz"]
  else if packageName == "tensorflow" then ["numpy", "six", "protobuf", "h5py"]
  else if packageName == "pytest" then ["iniconfig", "packaging", "pluggy"]
  else if packageName == "scikit-learn" then ["numpy", "scipy", "joblib", "threadpoolctl"]
  else []

/-- `addDependencies` from `App.tsx`: the mock dependency records. -/
def addDependencies (packageName : String) : List Package :=
  (mockDependencies packageName).map (fun dep =>
    { name := dep, version := "latest", isDependency := true })

/-! ## Reconciliation Engine (the shared body of the resolution-success
branches of `handleFileUpload`, `handleTemplateSelect`, `handlePackageSelect`
and `handlePackageRemove`) -/

/-- JS `a || b` on optional strings: the empty string is falsy. -/
def jsOrStr : Option String → Option String → Option String
  | some s, b => if s == "" then b else some s
  | none, b => b

/-- JS `pkg.fullName || pkg.name` (the empty string is falsy). -/
def jsOrName (fullName : Option String) (name : String) : String :=
  match fullName with
  | some s => if s == "" then name else s
  | none => name

/-- `String.prototype.toLowerCase`, character-wise (the names involved are
ASCII). -/
def jsToLower (s : String) : String :=
  (s.data.map Char.toLower).asString

/-- Lookup in `new Map(packages.map(pkg => [pkg.name.toLowerCase(), pkg]))`:
a JS `Map` keeps the last binding of each key. -/
def lookupLastLower (packages : List Package) (key : String) : Option Package :=
  packages.foldl (fun acc p => if jsToLower p.name == key then some p else acc) none

/-- JS object lookup `resolution.resolved_packages?.[name]` (keys are
unique, lookup by exact name). -/
def lookupResolved (res : Resolution) (name : String) : Option ResolvedPackage :=
  (res.resolved_packages.find? (fun e => e.1 == name)).map (·.2)

/-- `new Set(resolution.tree?.map(tree => tree.name.toLowerCase()) || [])`. -/
def rootNamesLower (res : Resolution) : List String :=
  res.tree.map (fun t => jsToLower t.name)

/-- The reconciliation pass shared by all resolution-success branches:
for every `(name, version)` entry of `resolution.packages` build a record,
classifying by membership of the lowercased name among the lowercased tree
root names, preferring the previous record's hash over the resolver digest
(JS `||`), and carrying the previous record's `fullName`. -/
def reconcile (prevPackages : List Package) (res : Resolution) : List Package :=
  res.packages.map (fun entry =>
    let name := entry.1
    let version := entry.2
    let existingPkg := lookupLastLower prevPackages (jsToLower name)
    let resolvedPkg := lookupResolved res name
    { name := name
      version := version
      isDependency := !((rootNamesLower res).contains (jsToLower name))
      hash := jsOrStr (existingPkg.bind Package.hash) (resolvedPkg.bind ResolvedPackage.sha256_hash)
      fullName := existingPkg.bind Package.fullName })

/-! ## Mutation Orchestrator (the `App.tsx` handlers as a state machine) -/

/-- The project state owned by `App.tsx`: the package list, the settings and
the stored `dependencyResolution`. -/
structure AppState where
  packages : List Package
  settings : Settings
  dependencyResolution : Option Resolution

/-- The initial `useState` values of `App.tsx`. -/
def initialState : AppState :=
  { packages := [], settings := defaultSettings, dependencyResolution := none }

/-- The specifier submitted for an existing record:
`pkg.version === 'latest' ? pkg.name : name==version`. -/
def specOf (p : Package) : String :=
  if p.version == "latest" then p.name else p.name ++ "==" ++ p.version

/-- `templatePkg.split(&op-class&)[0].trim()` of `handleTemplateSelect`:
the operator-free head of a template specifier, trimmed. -/
def templateBaseName (s : String) : String :=
  (trimChars (s.data.takeWhile (fun c => !isOpChar c))).asString

/-- The parse of one template specifier used by the non-resolving branch and
the catch branch of `handleTemplateSelect` (name from group 1 trimmed, else
the raw specifier; bare version from group 2, else `>=0.0.0`). -/
def parseTemplateSpec (pkgSpec : String) : Package :=
  match specSplit pkgSpec.data with
  | some (n, vspec) =>
    { name := (trimChars n).asString
      version := (replaceFirstOpRun (trimChars vspec)).asString
      isDependency := false }
  | none =>
    { name := pkgSpec
      version := (replaceFirstOpRun (trimChars ">=0.0.0".data)).asString
      isDependency := false }

/-- `[...prev, ...newPackages.filter(p => !existingNames.has(p.name))]`:
append the new records whose exact name is not already present. -/
def appendUnique (prev newPackages : List Package) : List Package :=
  prev ++ newPackages.filter (fun p => !(prev.any (fun q => q.name == p.name)))

/-- The immediate `setPackages` updater of `handlePackageRemove`. -/
def removeImmediate (prev : List Package) (packageName : String) : List Package :=
  match prev.find? (fun p => p.name == packageName) with
  | none => prev
  | some packageToRemove =>
    let withoutTarget := prev.filter (fun p => !(p.name == packageName))
    if packageToRemove.isDependency then withoutTarget
    else
      let remainingMainPackages := withoutTarget.filter (fun p => !p.isDependency)
      if remainingMainPackages.isEmpty then [] else withoutTarget

/-- The specifier list the delayed re-resolution of `handlePackageRemove`
submits to `apiClient.resolveDependencies`, or `none` when no call is made
(auto-resolve off, or no main package remains in the captured list). -/
def removeResolveRequest (s : AppState) (packageName : String) : Option (List String) :=
  if s.settings.autoResolve then
    let currentPackages := s.packages.filter (fun p => !(p.name == packageName))
    let mainPackages := currentPackages.filter (fun p => !p.isDependency)
    if mainPackages.isEmpty then none else some (mainPackages.map specOf)
  else none

/-- One completed user operation.  Each handler of `App.tsx` awaits at most
one resolver call; the `Ok` constructors carry the resolver's response as an
oracle, the `Fail` constructors are the catch paths of the same handlers. -/
inductive Op where
  | uploadOk (content : String) (res : Resolution)
  | uploadFail (content : String)
  | addSearchOk (packageName version : String) (res : Resolution)
  | addSearchFail (packageName version : String)
  | addTemplateOk (specs : List String) (res : Resolution)
  | addTemplateFail (specs : List String)
  | removeOk (packageName : String) (res : Resolution)
  | removeFail (packageName : String)
  | updateVersion (packageName newVersion : String)

/-- The state transition of each handler of `App.tsx`, run to completion
(including the delayed re-resolution timer of `handlePackageRemove`). -/
def applyOp (s : AppState) : Op → AppState
  | .uploadOk content res =>
    let parsedPackages := parseRequirementsContent content
    if s.settings.autoResolve && !parsedPackages.isEmpty then
      { s with packages := reconcile parsedPackages res, dependencyResolution := some res }
    else
      { s with packages := parsedPackages, dependencyResolution := none }
  | .uploadFail content =>
    -- the resolve call can only fail in the auto-resolve branch; its catch
    -- and the non-resolving branch both install the parsed records and
    -- clear the stored resolution
    { s with packages := parseRequirementsContent content, dependencyResolution := none }
  | .addSearchOk packageName _version res =>
    if s.settings.autoResolve then
      if s.packages.any (fun p => p.name == packageName) then s
      else { s with packages := reconcile s.packages res, dependencyResolution := some res }
    else
      { s with packages :=
          if s.packages.any (fun p => p.name == packageName) then s.packages
          else s.packages ++ [{ name := packageName, version := _version, isDependency := false }] }
  | .addSearchFail packageName version =>
    let newPackages : List Package :=
      { name := packageName, version := version, isDependency := false } ::
        (if s.settings.autoResolve then addDependencies packageName else [])
    { s with packages := appendUnique s.packages newPackages }
  | .addTemplateOk specs res =>
    if s.settings.autoResolve then
      let newTemplatePackages := specs.filter (fun sp =>
        !(s.packages.any (fun p => p.name == templateBaseName sp)))
      if newTemplatePackages.isEmpty then s
      else { s with packages := reconcile s.packages res, dependencyResolution := some res }
    else
      { s with packages := appendUnique s.packages (specs.map parseTemplateSpec) }
  | .addTemplateFail specs =>
    let newPackages := specs.flatMap (fun sp =>
      let main := parseTemplateSpec sp
      main :: (if s.settings.autoResolve then addDependencies main.name else []))
    { s with packages := appendUnique s.packages newPackages }
  | .removeOk packageName res =>
    let immediate := removeImmediate s.packages packageName
    -- the timer closure captured the pre-removal package list
    let currentPackages := s.packages.filter (fun p => !(p.name == packageName))
    let mainPackages := currentPackages.filter (fun p => !p.isDependency)
    if s.settings.autoResolve && !mainPackages.isEmpty then
      { s with packages := reconcile currentPackages res, dependencyResolution := some res }
    else
      { s with packages := immediate }
  | .removeFail packageName =>
    -- the timer's catch only logs; the immediate update stands
    { s with packages := removeImmediate s.packages packageName }
  | .updateVersion packageName newVersion =>
    { s with packages := s.packages.map (fun p =>
        if p.name == packageName then { p with version := newVersion } else p) }

/-- A sequence of completed operations. -/
def runOps (s : AppState) (ops : List Op) : AppState :=
  ops.foldl applyOp s

/-- The resolution installed by an operation when it takes a successful
auto-resolving path, `none` otherwise; the guards mirror the branch
conditions of the handlers. -/
def autoResOf (s : AppState) : Op → Option Resolution
  | .uploadOk content res =>
    if s.settings.autoResolve && !(parseRequirementsContent content).isEmpty
    then some res else none
  | .addSearchOk packageName _ res =>
    if s.settings.autoResolve && !(s.packages.any (fun p => p.name == packageName))
    then some res else none
  | .addTemplateOk specs res =>
    if s.settings.autoResolve &&
        !(specs.filter (fun sp =>
            !(s.packages.any (fun p => p.name == templateBaseName sp)))).isEmpty
    then some res else none
  | .removeOk packageName res =>
    if s.settings.autoResolve &&
        !((s.packages.filter (fun p => !(p.name == packageName))).filter
            (fun p => !p.isDependency)).isEmpty
    then some res else none
  | _ => none

/-! ## Export Formatter (`generateRequirementsContent`, ExportManager.tsx) -/

/-- Code-point comparison of character lists, our model of
`a.localeCompare(b)` being non-positive. -/
def charListLe : List Char → List Char → Bool
  | [], _ => true
  | _ :: _, [] => false
  | a :: as, b :: bs =>
    if a < b then true
    else if b < a then false
    else charListLe as bs

/-- The sort `packagesToExport.sort((a, b) => a.name.localeCompare(b.name))`,
modelled as a stable sort by code-point order of the names. -/
def sortByName (l : List Package) : List Package :=
  l.insertionSort (fun a b => charListLe a.name.data b.name.data = true)

/-- The line built for one exported package: `fullName || name`, then the
version suffix chosen by `exportFormat`, then the optional hash directive. -/
def formatLine (settings : Settings) (pkg : Package) : String :=
  let line := jsOrName pkg.fullName pkg.name
  let line :=
    match settings.exportFormat with
    | .standard => line ++ "==" ++ pkg.version
    | .pinned => line ++ ">=" ++ pkg.version
    | .loose => line
  match pkg.hash with
  | some h => if settings.includeHashes && !(h == "") then line ++ " --hash=sha256:" ++ h else line
  | none => line

/-- `settings.showDependencies ? packages : packages.filter(!isDependency)`. -/
def selectedForExport (packages : List Package) (settings : Settings) : List Package :=
  if settings.showDependencies then packages
  else packages.filter (fun p => !p.isDependency)

/-- `generateRequirementsContent` from `ExportManager.tsx`: optional index
directive plus blank line, then one line per selected package in name
order, joined with newlines. -/
def generateRequirementsContent (packages : List Package) (settings : Settings) : String :=
  let headerLines : List String :=
    if !(settings.customIndex == "") then ["--index-url " ++ settings.customIndex, ""] else []
  let lines := headerLines ++
    (sortByName (selectedForExport packages settings)).map (formatLine settings)
  (joinLinesChar (lines.map String.data)).asString

/-- The package list after `generateRequirementsContent` returns:
`Array.prototype.sort` sorts its receiver in place, and with
`showDependencies` set the receiver is the `packages` array itself rather
than the filtered copy, so the shared list ends up reordered. -/
def packagesAfterGenerate (packages : List Package) (settings : Settings) : List Package :=
  if settings.showDependencies then sortByName packages else packages

/-! ## Shared example values -/

/-- Scenario C of the specification: `flask` root with a `werkzeug` child. -/
def exampleResolution : Resolution :=
  { packages := [("flask", "2.3.0"), ("werkzeug", "2.3.1")]
    resolved_packages := []
    tree := [.node "flask" "2.3.0" [.node "werkzeug" "2.3.1" []]] }

/-- A state holding one main package and one dependency, with the default
settings (auto-resolve on) and Scenario C as the stored resolution. -/
def exampleState : AppState :=
  { packages := [{ name := "flask", version := "2.3.0", isDependency := false },
                 { name := "werkzeug", version := "2.3.1", isDependency := true }]
    settings := defaultSettings
    dependencyResolution := some exampleResolution }

/-- A state holding a lone `django` record, with auto-resolve disabled. -/
def djangoState : AppState :=
  { packages := [{ name := "django", version := "latest", isDependency := false }]
    settings := { defaultSettings with autoResolve := false }
    dependencyResolution := none }

/-! ## C8 — fullName on parsed records -/

/-- C8 counterexample: the claim says a parsed record whose name part
contains no `[` has `fullName` unset, but the parser stores the name text
as `fullName` on every record: parsing `requests==2.31.0` yields a record
with `fullName = some "requests"`, not `none`. -/
theorem c8_fullName_always_set_counterexample :
    (parseRequirementsContent "requests==2.31.0").map Package.fullName
      = [some "requests"] := by decide

/-- The record Scenario B's input parses to. -/
def torchRecord : Package :=
  { name := "torch"
    version := "2.0.0"
    isDependency := false
    hash := none
    fullName := some "torch[gpu]" }

/-- C8 amended: every record the parser produces carries `fullName = some f`
where `f` is the original (trimmed) name text and `name` is the substring of
`f` before the first `[` when `f` has brackets, else `f` itself. -/
theorem c8_fullName_base_relation (content : String) (p : Package)
    (hp : p ∈ parseRequirementsContent content) :
    ∃ f : String, p.fullName = some f ∧
      ((f.data.contains '[' = false → p.name = f) ∧
       (f.data.contains '[' = true →
         p.name.data = f.data.takeWhile (fun c => !(c == '[')))) := by
  simp only [parseRequirementsContent] at hp
  have hmem := List.mem_of_mem_filter hp
  obtain ⟨line, -, rfl⟩ := List.mem_map.1 hmem
  simp only [parseReqLine]
  split
  all_goals
    refine ⟨_, rfl, fun hbr => ?_, fun hbr => ?_⟩ <;>
      simp_all [List.asString]

/-- Witness for the C8 amended theorem at Scenario B's input. -/
theorem c8_fullName_base_relation_witness :
    ∃ f : String, torchRecord.fullName = some f ∧
      ((f.data.contains '[' = false → torchRecord.name = f) ∧
       (f.data.contains '[' = true →
         torchRecord.name.data = f.data.takeWhile (fun c => !(c == '[')))) :=
  c8_fullName_base_relation "torch[gpu]==2.0.0" torchRecord (by decide)

/-! ## C10 — generating the export text mutates the shared package list -/

/-- Two main records in reverse name order. -/
def pkgB : Package := { name := "b", version := "1", isDependency := false }

/-- See `pkgB`. -/
def pkgA : Package := { name := "a", version := "1", isDependency := false }

/-- C10: generating the export text is not a pure read.
`packagesToExport.sort(...)` sorts its receiver in place and, with
`showDependencies` enabled (the default), the receiver is the `packages`
state array itself rather than a filtered copy, so the shared package list
is reordered: starting from `[b, a]` the list the rest of the app sees
afterwards is `[a, b]`. -/
theorem c10_generate_reorders_packages :
    packagesAfterGenerate [pkgB, pkgA] defaultSettings ≠ [pkgB, pkgA] := by
  decide

/-! ## C7 — shape of an exported line -/

/-- C7: each emitted line is `fullName` when present (and, per JS
truthiness, nonempty), otherwise `name`, followed by `==version` for the
`standard` format, `>=version` for `pinned`, and no version suffix for
`loose`, then the optional hash directive. -/
theorem c7_export_line_shape (pkg : Package) (settings : Settings)
    (hfn : pkg.fullName ≠ some "") :
    formatLine settings pkg =
      (pkg.fullName.getD pkg.name)
      ++ (match settings.exportFormat with
          | .standard => "==" ++ pkg.version
          | .pinned => ">=" ++ pkg.version
          | .loose => "")
      ++ (match pkg.hash with
          | some h =>
            if settings.includeHashes && !(h == "") then " --hash=sha256:" ++ h else ""
          | none => "") := by
  have hbase : jsOrName pkg.fullName pkg.name = pkg.fullName.getD pkg.name := by
    cases hf : pkg.fullName with
    | none => rfl
    | some f =>
      have hne : ¬ (f == "") = true := by
        simp only [beq_iff_eq]
        intro h
        exact hfn (by rw [hf, h])
      simp [jsOrName, hne]
  simp only [formatLine, hbase]
  cases settings.exportFormat <;> cases pkg.hash <;>
    simp [String.append_assoc] <;>
      split <;> simp [String.append_assoc]

/-- Witness for C7 at Scenario B's record under the default settings. -/
theorem c7_export_line_shape_witness :
    formatLine defaultSettings torchRecord =
      (torchRecord.fullName.getD torchRecord.name)
      ++ (match defaultSettings.exportFormat with
          | .standard => "==" ++ torchRecord.version
          | .pinned => ">=" ++ torchRecord.version
          | .loose => "")
      ++ (match torchRecord.hash with
          | some h =>
            if defaultSettings.includeHashes && !(h == "") then " --hash=sha256:" ++ h else ""
          | none => "") :=
  c7_export_line_shape torchRecord defaultSettings (by decide)

/-! ## Reconciliation lemmas shared by the claims about resolving paths -/

/-- The fields of any record built by a reconciliation pass, read off the
entry it was built from. -/
theorem mem_reconcile (prev : List Package) (res : Resolution) (p : Package)
    (hp : p ∈ reconcile prev res) :
    p.isDependency = !((rootNamesLower res).contains (jsToLower p.name)) ∧
    p.hash = jsOrStr ((lookupLastLower prev (jsToLower p.name)).bind Package.hash)
        ((lookupResolved res p.name).bind ResolvedPackage.sha256_hash) ∧
    p.fullName = (lookupLastLower prev (jsToLower p.name)).bind Package.fullName := by
  simp only [reconcile, List.mem_map] at hp
  obtain ⟨entry, -, rfl⟩ := hp
  exact ⟨rfl, rfl, rfl⟩

/-- The names of a reconciled list are exactly the keys of the resolution's
`packages` map, in order. -/
theorem reconcile_map_name (prev : List Package) (res : Resolution) :
    (reconcile prev res).map Package.name = res.packages.map Prod.fst := by
  rw [reconcile, List.map_map]
  rfl

/-- Every successful auto-resolving path of the handlers stores the
resolution and rebuilds the package list by a reconciliation pass against
some previous list. -/
theorem applyOp_autoRes (s : AppState) (op : Op) (res : Resolution)
    (h : autoResOf s op = some res) :
    ∃ prev, applyOp s op =
      { s with packages := reconcile prev res, dependencyResolution := some res } := by
  cases op with
  | uploadOk content r =>
    simp only [autoResOf] at h
    by_cases hc : (s.settings.autoResolve && !(parseRequirementsContent content).isEmpty) = true
    · rw [if_pos hc] at h
      obtain rfl := Option.some.inj h
      rw [Bool.and_eq_true] at hc
      obtain ⟨ha, hb⟩ := hc
      exact ⟨parseRequirementsContent content, by simp [applyOp, ha, hb]⟩
    · rw [if_neg hc] at h
      exact Option.noConfusion h
  | addSearchOk n v r =>
    simp only [autoResOf] at h
    by_cases hc : (s.settings.autoResolve && !(s.packages.any (fun p => p.name == n))) = true
    · rw [if_pos hc] at h
      obtain rfl := Option.some.inj h
      rw [Bool.and_eq_true] at hc
      obtain ⟨ha, hb⟩ := hc
      have hb' : (s.packages.any (fun p => p.name == n)) = false := by
        simpa using hb
      exact ⟨s.packages, by simp [applyOp, ha, hb']⟩
    · rw [if_neg hc] at h
      exact Option.noConfusion h
  | addTemplateOk specs r =>
    simp only [autoResOf] at h
    by_cases hc : (s.settings.autoResolve &&
        !(specs.filter (fun sp =>
            !(s.packages.any (fun p => p.name == templateBaseName sp)))).isEmpty) = true
    · rw [if_pos hc] at h
      obtain rfl := Option.some.inj h
      rw [Bool.and_eq_true] at hc
      obtain ⟨ha, hb⟩ := hc
      have hX : (specs.filter (fun sp =>
          !(s.packages.any (fun p => p.name == templateBaseName sp)))).isEmpty = false := by
        simpa using hb
      refine ⟨s.packages, ?_⟩
      simp only [applyOp, ha, hX]
      simp
    · rw [if_neg hc] at h
      exact Option.noConfusion h
  | removeOk n r =>
    simp only [autoResOf] at h
    by_cases hc : (s.settings.autoResolve &&
        !((s.packages.filter (fun p => !(p.name == n))).filter
            (fun p => !p.isDependency)).isEmpty) = true
    · rw [if_pos hc] at h
      obtain rfl := Option.some.inj h
      rw [Bool.and_eq_true] at hc
      obtain ⟨ha, hb⟩ := hc
      have hX : ((s.packages.filter (fun p => !(p.name == n))).filter
          (fun p => !p.isDependency)).isEmpty = false := by
        simpa using hb
      refine ⟨s.packages.filter (fun p => !(p.name == n)), ?_⟩
      simp only [applyOp, ha, hX]
      simp
    · rw [if_neg hc] at h
      exact Option.noConfusion h
  | uploadFail content => exact Option.noConfusion h
  | addSearchFail n v => exact Option.noConfusion h
  | addTemplateFail specs => exact Option.noConfusion h
  | removeFail n => exact Option.noConfusion h
  | updateVersion n v => exact Option.noConfusion h

/-! ## C2 — closure fidelity -/

/-- C2: after every successful auto-resolving mutation (upload, add from
search, add from template, or the delayed re-resolution after a removal),
the names of the records in the state are exactly the key list of the
resolution's `packages` map — every key has a record and no other record
survives. -/
theorem c2_closure_fidelity (s : AppState) (op : Op) (res : Resolution)
    (h : autoResOf s op = some res) :
    (applyOp s op).packages.map Package.name = res.packages.map Prod.fst := by
  obtain ⟨prev, heq⟩ := applyOp_autoRes s op res h
  rw [heq]
  exact reconcile_map_name prev res

/-- Witness for C2: uploading `flask==2.3.0` with Scenario C's response. -/
theorem c2_closure_fidelity_witness :
    (applyOp initialState (Op.uploadOk "flask==2.3.0" exampleResolution)).packages.map
      Package.name = exampleResolution.packages.map Prod.fst :=
  c2_closure_fidelity initialState (Op.uploadOk "flask==2.3.0" exampleResolution)
    exampleResolution rfl

/-! ## C3 — classification against the tree roots -/

/-- C3: after every successful auto-resolving mutation, a record's
`isDependency` flag is `false` exactly when its lowercased name is among
the lowercased root names of the resolution's `tree`. -/
theorem c3_isDependency_iff_root (s : AppState) (op : Op) (res : Resolution)
    (h : autoResOf s op = some res) (p : Package)
    (hp : p ∈ (applyOp s op).packages) :
    (p.isDependency = false ↔
      jsToLower p.name ∈ res.tree.map (fun t => jsToLower t.name)) := by
  obtain ⟨prev, heq⟩ := applyOp_autoRes s op res h
  rw [heq] at hp
  have hd := (mem_reconcile prev res p hp).1
  rw [hd]
  simp [rootNamesLower]

/-- The record the upload of `flask==2.3.0` reconciles `flask` to. -/
def flaskReconciled : Package :=
  { name := "flask"
    version := "2.3.0"
    isDependency := false
    hash := none
    fullName := some "flask" }

/-- Witness for C3: in the uploaded state, `flask` is classified as a main
package exactly because it is a root of Scenario C's tree. -/
theorem c3_isDependency_iff_root_witness :
    (flaskReconciled.isDependency = false ↔
      jsToLower flaskReconciled.name ∈
        exampleResolution.tree.map (fun t => jsToLower t.name)) :=
  c3_isDependency_iff_root initialState (Op.uploadOk "flask==2.3.0" exampleResolution)
    exampleResolution rfl flaskReconciled (by decide)

/-! ## C4 — hash carry-over in reconciliation -/

/-- C4: in any reconciliation pass, a record whose canonical name had a
(nonempty) hash before the pass keeps exactly that hash — in particular
when the new resolution supplies no different digest — and a record with no
previous hash gets the resolver-supplied sha256 digest, if any. -/
theorem c4_hash_preservation (prev : List Package) (res : Resolution) (p : Package)
    (hp : p ∈ reconcile prev res) :
    (∀ h₀ : String, (lookupLastLower prev (jsToLower p.name)).bind Package.hash = some h₀ →
        h₀ ≠ "" → p.hash = some h₀) ∧
    ((lookupLastLower prev (jsToLower p.name)).bind Package.hash = none →
        p.hash = (lookupResolved res p.name).bind ResolvedPackage.sha256_hash) := by
  have hh := (mem_reconcile prev res p hp).2.1
  constructor
  · intro h₀ hprev hne
    rw [hh, hprev]
    simp [jsOrStr, hne]
  · intro hnone
    rw [hh, hnone]
    rfl

/-- The `flask` record carrying the uploaded hash. -/
def flaskHashed : Package :=
  { name := "flask"
    version := "2.3.0"
    isDependency := false
    hash := some "deadbeef"
    fullName := some "flask" }

/-- Witness for C4: reconciling the parsed `flask` record (hash `deadbeef`)
against Scenario C's resolution keeps the hash. -/
theorem c4_hash_preservation_witness : flaskHashed.hash = some "deadbeef" :=
  (c4_hash_preservation [flaskHashed] exampleResolution flaskHashed (by decide)).1
    "deadbeef" (by decide) (by decide)

/-! ## C5 — removing a dependency-only record -/

/-- C5 counterexample: with auto-resolve on (the default), removing the
dependency-only record `werkzeug` from a state holding `flask` (main) and
`werkzeug` (dependency) does issue a resolution call — the delayed
re-resolution submits the remaining main specifiers — and the completed
operation reinstates `werkzeug` from the resolution closure instead of
leaving the set without it. -/
theorem c5_remove_dependency_counterexample :
    removeResolveRequest exampleState "werkzeug" = some ["flask==2.3.0"] ∧
    (applyOp exampleState (Op.removeOk "werkzeug" exampleResolution)).packages.map
      Package.name = ["flask", "werkzeug"] := by
  constructor
  · decide
  · decide

/-- C5 amended: removing a dependency-only record deletes exactly the
records with that name from the list immediately; no resolution call is
made when auto-resolve is disabled, but when auto-resolve is enabled and a
main package remains, the delayed re-resolution does issue a call. -/
theorem c5_remove_dependency_amended (s : AppState) (n : String) (p : Package)
    (hfind : s.packages.find? (fun q => q.name == n) = some p)
    (hdep : p.isDependency = true) :
    removeImmediate s.packages n = s.packages.filter (fun q => !(q.name == n)) ∧
    (s.settings.autoResolve = false → removeResolveRequest s n = none) ∧
    (s.settings.autoResolve = true →
      ((s.packages.filter (fun q => !(q.name == n))).filter
          (fun q => !q.isDependency)).isEmpty = false →
        removeResolveRequest s n ≠ none) := by
  refine ⟨?_, ?_, ?_⟩
  · simp only [removeImmediate, hfind, hdep]
    simp
  · intro ha
    simp [removeResolveRequest, ha]
  · intro ha hm
    simp only [removeResolveRequest, ha, hm]
    simp

/-- The dependency-only record of `exampleState`. -/
def werkzeugDep : Package :=
  { name := "werkzeug", version := "2.3.1", isDependency := true }

/-- Witness for the C5 amended theorem on `exampleState`. -/
theorem c5_remove_dependency_amended_witness :
    removeImmediate exampleState.packages "werkzeug"
        = exampleState.packages.filter (fun q => !(q.name == "werkzeug")) ∧
    (exampleState.settings.autoResolve = false →
        removeResolveRequest exampleState "werkzeug" = none) ∧
    (exampleState.settings.autoResolve = true →
      ((exampleState.packages.filter (fun q => !(q.name == "werkzeug"))).filter
          (fun q => !q.isDependency)).isEmpty = false →
        removeResolveRequest exampleState "werkzeug" ≠ none) :=
  c5_remove_dependency_amended exampleState "werkzeug" werkzeugDep (by decide) (by decide)

/-! ## C6 — fallback after a failed resolution call -/

/-- A state with an empty package list but a stale stored resolution. -/
def staleResState : AppState :=
  { packages := [], settings := defaultSettings, dependencyResolution := some exampleResolution }

/-- C6 counterexample: when the resolution call of an add-from-search fails
(auto-resolve on), the fallback contains transitively-added mock dependency
records, and the stored resolution result is not cleared. -/
theorem c6_failure_fallback_counterexample :
    ((applyOp staleResState (Op.addSearchFail "django" "latest")).packages.any
        (fun p => p.isDependency)) = true ∧
    (applyOp staleResState (Op.addSearchFail "django" "latest")).dependencyResolution.isSome
        = true := by
  constructor
  · decide
  · rfl

/-- C6 amended: a failed upload falls back exactly to the parsed records
and clears the stored resolution; a failed add-from-search or
add-from-template appends the new main record(s) plus, when auto-resolve is
enabled, the mock dependencies of the hardcoded table (skipping exact-name
duplicates against the previous list), and leaves the stored resolution
unchanged. -/
theorem c6_failure_fallback_amended (s : AppState) (content n v : String)
    (specs : List String) :
    ((applyOp s (Op.uploadFail content)).packages = parseRequirementsContent content ∧
      (applyOp s (Op.uploadFail content)).dependencyResolution = none) ∧
    ((applyOp s (Op.addSearchFail n v)).dependencyResolution = s.dependencyResolution ∧
      (applyOp s (Op.addSearchFail n v)).packages =
        appendUnique s.packages
          ({ name := n, version := v, isDependency := false } ::
            (if s.settings.autoResolve then addDependencies n else []))) ∧
    ((applyOp s (Op.addTemplateFail specs)).dependencyResolution = s.dependencyResolution ∧
      (applyOp s (Op.addTemplateFail specs)).packages =
        appendUnique s.packages (specs.flatMap (fun sp =>
          parseTemplateSpec sp ::
            (if s.settings.autoResolve then addDependencies (parseTemplateSpec sp).name
             else [])))) :=
  ⟨⟨rfl, rfl⟩, ⟨rfl, rfl⟩, ⟨rfl, rfl⟩⟩

/-! ## C1 — name uniqueness under operation sequences -/

/-- Filtering by any predicate preserves distinctness of names. -/
theorem filter_names_nodup (l : List Package) (p : Package → Bool)
    (h : (l.map Package.name).Nodup) : ((l.filter p).map Package.name).Nodup :=
  h.sublist ((List.filter_sublist l).map Package.name)

/-- `appendUnique` preserves distinctness of names when the appended batch
is internally name-distinct. -/
theorem appendUnique_names_nodup (prev newPackages : List Package)
    (hprev : (prev.map Package.name).Nodup)
    (hnew : (newPackages.map Package.name).Nodup) :
    ((appendUnique prev newPackages).map Package.name).Nodup := by
  rw [appendUnique, List.map_append]
  refine hprev.append (filter_names_nodup _ _ hnew) ?_
  intro a ha hb
  simp only [List.mem_map, List.mem_filter] at ha hb
  obtain ⟨q, hq, rfl⟩ := ha
  obtain ⟨p, ⟨-, hp⟩, hpn⟩ := hb
  simp only [Bool.not_eq_true', List.any_eq_false, beq_iff_eq] at hp
  exact hp q hq hpn.symm

/-- The immediate removal update preserves distinctness of names. -/
theorem removeImmediate_names_nodup (prev : List Package) (n : String)
    (h : (prev.map Package.name).Nodup) :
    ((removeImmediate prev n).map Package.name).Nodup := by
  unfold removeImmediate
  split
  · exact h
  · split
    · exact filter_names_nodup _ _ h
    · show ((if ((prev.filter (fun p => !(p.name == n))).filter
          (fun p => !p.isDependency)).isEmpty then []
          else prev.filter (fun p => !(p.name == n))).map Package.name).Nodup
      split
      · simp
      · exact filter_names_nodup _ _ h

/-- The names of the mock dependency records. -/
theorem addDependencies_names (n : String) :
    (addDependencies n).map Package.name = mockDependencies n := by
  rw [addDependencies, List.map_map]
  exact List.map_id _

/-- Side conditions under which one operation preserves exact-name
uniqueness: resolver responses carry distinct keys (JS object keys always
do) and batch inserts are internally name-distinct. -/
def opWF : Op → Prop
  | .uploadOk content res =>
      (res.packages.map Prod.fst).Nodup ∧
      ((parseRequirementsContent content).map Package.name).Nodup
  | .uploadFail content => ((parseRequirementsContent content).map Package.name).Nodup
  | .addSearchOk _ _ res => (res.packages.map Prod.fst).Nodup
  | .addSearchFail n _ => (n :: mockDependencies n).Nodup
  | .addTemplateOk specs res =>
      (res.packages.map Prod.fst).Nodup ∧
      ((specs.map parseTemplateSpec).map Package.name).Nodup
  | .addTemplateFail specs =>
      (specs.flatMap (fun sp => (parseTemplateSpec sp).name ::
          mockDependencies (parseTemplateSpec sp).name)).Nodup ∧
      ((specs.map parseTemplateSpec).map Package.name).Nodup
  | .removeOk _ res => (res.packages.map Prod.fst).Nodup
  | .removeFail _ => True
  | .updateVersion _ _ => True

instance : DecidablePred opWF := fun op => by
  cases op <;> simp only [opWF] <;> infer_instance

/-- One well-formed operation step preserves distinctness of names. -/
theorem applyOp_names_nodup (s : AppState) (op : Op) (hwf : opWF op)
    (h : (s.packages.map Package.name).Nodup) :
    ((applyOp s op).packages.map Package.name).Nodup := by
  cases op with
  | uploadOk content res =>
    obtain ⟨hkeys, hparsed⟩ := hwf
    simp only [applyOp]
    split
    · show ((reconcile _ res).map Package.name).Nodup
      rw [reconcile_map_name]
      exact hkeys
    · exact hparsed
  | uploadFail content => exact hwf
  | addSearchOk n v res =>
    simp only [applyOp]
    split
    · split
      · exact h
      · show ((reconcile _ res).map Package.name).Nodup
        rw [reconcile_map_name]
        exact hwf
    · show (((if s.packages.any (fun p => p.name == n) then s.packages
          else s.packages ++ [{ name := n, version := v, isDependency := false }]).map
            Package.name)).Nodup
      split
      · exact h
      · next hany =>
        rw [List.map_append]
        refine h.append (by simp) ?_
        intro a ha hb
        simp only [List.map_cons, List.map_nil, List.mem_singleton] at hb
        subst hb
        simp only [List.mem_map] at ha
        obtain ⟨q, hq, hqn⟩ := ha
        apply hany
        rw [List.any_eq_true]
        exact ⟨q, hq, beq_iff_eq.mpr hqn⟩
  | addSearchFail n v =>
    refine appendUnique_names_nodup _ _ h ?_
    by_cases ha : s.settings.autoResolve = true
    · have heq : (if s.settings.autoResolve then addDependencies n else []) =
          addDependencies n := by simp [ha]
      rw [heq, List.map_cons, addDependencies_names]
      exact hwf
    · have heq : (if s.settings.autoResolve then addDependencies n else []) =
          ([] : List Package) := by simp [ha]
      rw [heq]
      simp
  | addTemplateOk specs res =>
    obtain ⟨hkeys, hmains⟩ := hwf
    simp only [applyOp]
    split
    · split
      · exact h
      · show ((reconcile _ res).map Package.name).Nodup
        rw [reconcile_map_name]
        exact hkeys
    · exact appendUnique_names_nodup _ _ h hmains
  | addTemplateFail specs =>
    obtain ⟨hfull, hmains⟩ := hwf
    refine appendUnique_names_nodup _ _ h ?_
    by_cases ha : s.settings.autoResolve = true
    · have heq : (fun sp => parseTemplateSpec sp ::
          (if s.settings.autoResolve then addDependencies (parseTemplateSpec sp).name
           else [])) = (fun sp => parseTemplateSpec sp ::
              addDependencies (parseTemplateSpec sp).name) := by
        funext sp
        simp [ha]
      rw [heq, List.map_flatMap]
      simp only [List.map_cons, addDependencies_names]
      exact hfull
    · have heq : (fun sp => parseTemplateSpec sp ::
          (if s.settings.autoResolve then addDependencies (parseTemplateSpec sp).name
           else [])) = (fun sp => [parseTemplateSpec sp]) := by
        funext sp
        simp [ha]
      rw [heq, List.map_flatMap]
      simp only [List.map_cons, List.map_nil]
      have hsingle : ∀ L : List String, (L.flatMap (fun sp => [(parseTemplateSpec sp).name])) =
          L.map (fun sp => (parseTemplateSpec sp).name) := by
        intro L
        induction L with
        | nil => rfl
        | cons a l ih => simp [ih]
      rw [hsingle]
      rw [List.map_map] at hmains
      exact hmains
  | removeOk n res =>
    simp only [applyOp]
    split
    · show ((reconcile _ res).map Package.name).Nodup
      rw [reconcile_map_name]
      exact hwf
    · exact removeImmediate_names_nodup _ _ h
  | removeFail n => exact removeImmediate_names_nodup _ _ h
  | updateVersion n v =>
    have heq : ((s.packages.map (fun p =>
        if p.name == n then { p with version := v } else p)).map Package.name)
        = s.packages.map Package.name := by
      rw [List.map_map]
      refine List.map_congr_left ?_
      intro p _
      show (if p.name == n then { p with version := v } else p).name = p.name
      split <;> rfl
    show ((s.packages.map _).map Package.name).Nodup
    rw [heq]
    exact h

/-- C1 counterexample: the duplicate checks compare names case-sensitively,
so the canonical (lowercased) names are not kept unique.  Uploading a
manifest whose resolution failed with lines `django==1.0` and `Django==1.0`
leaves two records with the same canonical name, and adding `Django` from
search (auto-resolve off) while `django` is present creates a second
record as well. -/
theorem c1_case_insensitive_uniqueness_counterexample :
    ¬ (((applyOp initialState (Op.uploadFail "django==1.0\nDjango==1.0")).packages.map
        (fun p => jsToLower p.name)).Nodup) ∧
    ¬ (((applyOp djangoState (Op.addSearchOk "Django" "4.0" exampleResolution)).packages.map
        (fun p => jsToLower p.name)).Nodup) := by
  constructor <;> decide

/-- C1 amended: the package set keeps *exact* (case-sensitive) names
unique: starting from any state with name-distinct records, any sequence
of upload / add-from-search / add-from-template / remove / update
operations whose resolver responses have distinct keys and whose inserted
batches are internally name-distinct leaves the record names pairwise
distinct.  Case-insensitive uniqueness does not hold (see the
counterexample): a name differing from an existing record only in letter
case is inserted as a second record. -/
theorem c1_exact_name_uniqueness (s : AppState) (ops : List Op)
    (h0 : (s.packages.map Package.name).Nodup)
    (hwf : ∀ op ∈ ops, opWF op) :
    ((runOps s ops).packages.map Package.name).Nodup := by
  induction ops generalizing s with
  | nil => exact h0
  | cons op rest ih =>
    show ((runOps (applyOp s op) rest).packages.map Package.name).Nodup
    exact ih (applyOp s op)
      (applyOp_names_nodup s op (hwf op (List.mem_cons_self op rest)) h0)
      (fun o ho => hwf o (List.mem_cons_of_mem op ho))

/-- Witness for the C1 amended theorem: an upload followed by a failed
add-from-search keeps the names distinct. -/
theorem c1_exact_name_uniqueness_witness :
    ((runOps initialState [Op.uploadOk "flask==2.3.0" exampleResolution,
        Op.addSearchFail "django" "latest"]).packages.map Package.name).Nodup :=
  c1_exact_name_uniqueness initialState
    [Op.uploadOk "flask==2.3.0" exampleResolution, Op.addSearchFail "django" "latest"]
    (by decide) (by decide)

/-! ## C9 — export / parse round trip -/

/-- The `(name, version, hash)` triple of a record, the data the round-trip
property compares. -/
def pkgTriple (p : Package) : String × String × Option String :=
  (p.name, p.version, p.hash)

/-- A record with an uppercase-hex digest. -/
def upperHashRecord : Package :=
  { name := "requests", version := "2.31.0", isDependency := false, hash := some "DEADBEEF" }

/-- The default settings with hash inclusion enabled (`exportFormat` is
already `standard`). -/
def standardHashSettings : Settings :=
  { defaultSettings with includeHashes := true }

/-- C9 counterexample: the round trip fails for a record whose digest is
not lowercase hex.  `requests==2.31.0 --hash=sha256:DEADBEEF` is emitted,
but the import regex only captures `[a-f0-9]+`, so the re-parsed record
loses the hash and the triples differ. -/
theorem c9_roundtrip_counterexample :
    ¬ List.Perm
      ((parseRequirementsContent (generateRequirementsContent [upperHashRecord]
          standardHashSettings)).map pkgTriple)
      ((selectedForExport [upperHashRecord] standardHashSettings).map pkgTriple) := by
  decide

/-- Characters allowed in a well-formed package name. -/
def nameChar (c : Char) : Bool :=
  c.isAlphanum || c == '-' || c == '_' || c == '.'

/-- Characters allowed in a well-formed version string. -/
def versionChar (c : Char) : Bool :=
  c.isAlphanum || c == '.' || c == '-' || c == '_' || c == '+'

/-- Characters allowed in a name-with-extras (superset of `nameChar`). -/
def extrasTailChar (c : Char) : Bool :=
  c.isAlphanum || c == '[' || c == ']' || c == ',' || c == '-' || c == '_' || c == '.'

/-- No two adjacent dashes (so the substring `--` cannot occur). -/
def NoDD (l : List Char) : Prop :=
  List.Chain' (fun a b => ¬ (a = '-' ∧ b = '-')) l

/-- Executable check for `NoDD`. -/
def noDDb : List Char → Bool
  | [] => true
  | [_] => true
  | a :: b :: rest => (!(a == '-' && b == '-')) && noDDb (b :: rest)

theorem noDDb_eq : ∀ l : List Char, NoDD l ↔ noDDb l = true
  | [] => by simp [NoDD, noDDb]
  | [a] => by simp [NoDD, noDDb]
  | a :: b :: rest => by
    have ih := noDDb_eq (b :: rest)
    rw [NoDD] at ih ⊢
    rw [List.chain'_cons, ih]
    show _ ↔ ((!(a == '-' && b == '-')) && noDDb (b :: rest)) = true
    simp only [Bool.and_eq_true, Bool.not_eq_true', Bool.and_eq_false_iff,
      beq_eq_false_iff_ne, ne_eq]
    tauto

instance : DecidablePred NoDD := fun l =>
  decidable_of_iff (noDDb l = true) (noDDb_eq l).symm

/-- A well-formed canonical name: nonempty, over `nameChar`, starting
alphanumeric, without `--`. -/
def WfName (s : String) : Prop :=
  s.data ≠ [] ∧ s.data.all nameChar = true ∧
    (s.data.headD 'a').isAlphanum = true ∧ NoDD s.data

/-- A well-formed version string (possibly empty), without `--`. -/
def WfVersion (s : String) : Prop :=
  s.data.all versionChar = true ∧ NoDD s.data

/-- A well-formed digest: absent, or nonempty lowercase hex. -/
def WfHash : Option String → Prop
  | none => True
  | some h => h.data ≠ [] ∧ h.data.all isHexLower = true

/-- A well-formed full name relative to a canonical name: absent, or the
canonical name followed by a bracketed extras tail over `extrasTailChar`,
without `--`. -/
def WfFullNameAux (name : String) : Option String → Prop
  | none => True
  | some f =>
    name.data.isPrefixOf f.data = true ∧
      (let ext := f.data.drop name.data.length
       ext = [] ∨ ((ext.headD ' ') = '[' ∧ ext.all extrasTailChar = true ∧ NoDD f.data))

/-- A well-formed `fullName` field (see `WfFullNameAux`). -/
def WfFullName (p : Package) : Prop :=
  WfFullNameAux p.name p.fullName

/-- A well-formed record for the round-trip property. -/
def WfPackage (p : Package) : Prop :=
  WfName p.name ∧ WfVersion p.version ∧ WfHash p.hash ∧ WfFullName p

/-- A well-formed custom index URL: no whitespace, no backslash. -/
def WfIndex (s : String) : Prop :=
  s.data.all (fun c => !c.isWhitespace && !(c == '\\')) = true

/-! ### Character-class facts -/

/-- An alphanumeric character differs from any non-alphanumeric one. -/
theorem alnum_ne (c x : Char) (h : c.isAlphanum = true) (hx : x.isAlphanum = false) :
    (c == x) = false := by
  cases hbe : c == x
  · rfl
  · rw [beq_iff_eq] at hbe
    rw [hbe, hx] at h
    exact h.symm

/-- An alphanumeric character is not whitespace. -/
theorem alnum_not_ws (c : Char) (h : c.isAlphanum = true) : c.isWhitespace = false := by
  cases hw : c.isWhitespace
  · rfl
  · exfalso
    simp only [Char.isWhitespace, Bool.or_eq_true, decide_eq_true_eq] at hw
    rcases hw with ((rfl | rfl) | rfl) | rfl <;> exact absurd h (by decide)

/-- An alphanumeric character is not a comparison operator. -/
theorem alnum_not_op (c : Char) (h : c.isAlphanum = true) : isOpChar c = false := by
  cases hop : isOpChar c
  · rfl
  · exfalso
    simp only [isOpChar, Bool.or_eq_true, beq_iff_eq] at hop
    rcases hop with (((rfl | rfl) | rfl) | rfl) | rfl <;> exact absurd h (by decide)

/-- The facts needed of every character of a name-with-extras: not
whitespace, not an operator, not `;`, not a newline, not a backslash. -/
theorem extrasTailChar_facts (c : Char) (h : extrasTailChar c = true) :
    c.isWhitespace = false ∧ isOpChar c = false ∧ (c == ';') = false ∧
      (c == '\n') = false ∧ (c == '\\') = false := by
  simp only [extrasTailChar, Bool.or_eq_true, beq_iff_eq] at h
  rcases h with ((((((h | rfl) | rfl) | rfl) | rfl) | rfl) | rfl)
  · exact ⟨alnum_not_ws c h, alnum_not_op c h, alnum_ne c ';' h (by decide),
      alnum_ne c '\n' h (by decide), alnum_ne c '\\' h (by decide)⟩
  all_goals exact ⟨by decide, by decide, by decide, by decide, by decide⟩

/-- The same facts for version characters, plus: not `[`. -/
theorem versionChar_facts (c : Char) (h : versionChar c = true) :
    c.isWhitespace = false ∧ isOpChar c = false ∧ (c == ';') = false ∧
      (c == '\n') = false ∧ (c == '\\') = false := by
  simp only [versionChar, Bool.or_eq_true, beq_iff_eq] at h
  rcases h with ((((h | rfl) | rfl) | rfl) | rfl)
  · exact ⟨alnum_not_ws c h, alnum_not_op c h, alnum_ne c ';' h (by decide),
      alnum_ne c '\n' h (by decide), alnum_ne c '\\' h (by decide)⟩
  all_goals exact ⟨by decide, by decide, by decide, by decide, by decide⟩

/-- Every name character is an extras character. -/
theorem nameChar_extras (c : Char) (h : nameChar c = true) : extrasTailChar c = true := by
  simp only [nameChar, Bool.or_eq_true, beq_iff_eq] at h
  rcases h with ((h | rfl) | rfl) | rfl <;>
    simp [extrasTailChar, *]

/-- A lowercase-hex character is alphanumeric. -/
theorem isHexLower_alnum (c : Char) (h : isHexLower c = true) : c.isAlphanum = true := by
  simp only [isHexLower, Bool.or_eq_true, Bool.and_eq_true, decide_eq_true_eq] at h
  simp only [Char.isAlphanum, Char.isAlpha, Char.isLower, Char.isUpper, Char.isDigit,
    Bool.or_eq_true, Bool.and_eq_true, decide_eq_true_eq]
  rcases h with ⟨h1, h2⟩ | ⟨h1, h2⟩
  · exact Or.inl (Or.inr ⟨h1, le_trans h2 (show ('f' : Char) ≤ 'z' by decide)⟩)
  · exact Or.inr ⟨h1, h2⟩

/-! ### List utilities for the round-trip proof -/

/-- `takeWhile` keeps a list all of whose elements satisfy the predicate. -/
theorem takeWhile_eq_self (p : Char → Bool) (l : List Char) (h : ∀ c ∈ l, p c = true) :
    l.takeWhile p = l := by
  induction l with
  | nil => rfl
  | cons a t ih =>
    rw [List.takeWhile_cons, h a (List.mem_cons_self a t)]
    simp [ih fun c hc => h c (List.mem_cons_of_mem a hc)]

/-- `dropWhile` is the identity when the head fails the predicate. -/
theorem dropWhile_eq_self (p : Char → Bool) (l : List Char)
    (h : ∀ c, l.head? = some c → p c = false) : l.dropWhile p = l := by
  cases l with
  | nil => rfl
  | cons a t =>
    rw [List.dropWhile_cons, h a rfl]
    simp

/-- `trimChars` is the identity when neither end is whitespace. -/
theorem trimChars_eq_self (l : List Char)
    (h1 : ∀ c, l.head? = some c → c.isWhitespace = false)
    (h2 : ∀ c, l.getLast? = some c → c.isWhitespace = false) :
    trimChars l = l := by
  unfold trimChars
  rw [dropWhile_eq_self _ _ h1]
  rw [dropWhile_eq_self _ _ ?hrev, List.reverse_reverse]
  case hrev =>
    intro c hc
    rw [List.head?_reverse] at hc
    exact h2 c hc

/-- `takeWhile` stops exactly at the first failing element after an
all-satisfying block. -/
theorem takeWhile_append_cons (p : Char → Bool) (a : List Char) (b : Char) (t : List Char)
    (ha : ∀ c ∈ a, p c = true) (hb : p b = false) :
    (a ++ b :: t).takeWhile p = a := by
  induction a with
  | nil => simp [List.takeWhile_cons, hb]
  | cons x xs ih =>
    rw [List.cons_append, List.takeWhile_cons, ha x (List.mem_cons_self x xs)]
    simp [ih fun c hc => ha c (List.mem_cons_of_mem x hc)]

/-- A successful Boolean prefix test yields the decomposition. -/
theorem isPrefixOf_exists (l₁ l₂ : List Char) (h : l₁.isPrefixOf l₂ = true) :
    ∃ t, l₂ = l₁ ++ t := by
  induction l₁ generalizing l₂ with
  | nil => exact ⟨l₂, rfl⟩
  | cons a as ih =>
    cases l₂ with
    | nil => simp [List.isPrefixOf] at h
    | cons b bs =>
      simp only [List.isPrefixOf, Bool.and_eq_true, beq_iff_eq] at h
      obtain ⟨rfl, h2⟩ := h
      obtain ⟨t, rfl⟩ := ih bs h2
      exact ⟨t, rfl⟩

/-- `splitChar` never returns the empty list of parts. -/
theorem splitChar_ne_nil (c : Char) (l : List Char) : splitChar c l ≠ [] := by
  cases l with
  | nil => simp [splitChar]
  | cons x xs =>
    rw [splitChar]
    cases splitChar c xs with
    | nil => simp
    | cons r rs =>
      show (if x = c then [] :: r :: rs else (x :: r) :: rs) ≠ []
      split <;> simp

/-- Splitting a separator-free list yields that one part. -/
theorem splitChar_no_sep (c : Char) (l : List Char) (h : ¬ c ∈ l) :
    splitChar c l = [l] := by
  induction l with
  | nil => rfl
  | cons x xs ih =>
    rw [splitChar, ih (fun hmem => h (List.mem_cons_of_mem x hmem))]
    show (if x = c then [[], xs] else [x :: xs]) = [x :: xs]
    rw [if_neg (fun hx => h (by rw [hx]; exact List.mem_cons_self c xs))]

/-- Splitting past a separator-free block peels it off as the first part. -/
theorem splitChar_append (c : Char) (l t : List Char) (h : ¬ c ∈ l) :
    splitChar c (l ++ c :: t) = l :: splitChar c t := by
  induction l with
  | nil =>
    rw [List.nil_append, splitChar]
    cases heq : splitChar c t with
    | nil => exact absurd heq (splitChar_ne_nil c t)
    | cons r rs => simp
  | cons x xs ih =>
    rw [List.cons_append, splitChar,
      ih (fun hmem => h (List.mem_cons_of_mem x hmem))]
    show (if x = c then [] :: xs :: splitChar c t
          else (x :: xs) :: splitChar c t) = (x :: xs) :: splitChar c t
    rw [if_neg (fun hx => h (by rw [hx]; exact List.mem_cons_self c xs))]

/-- `splitChar` inverts `joinLinesChar` on newline-free lines. -/
theorem splitChar_joinLinesChar (ls : List (List Char)) (hne : ls ≠ [])
    (h : ∀ l ∈ ls, ¬ '\n' ∈ l) :
    splitChar '\n' (joinLinesChar ls) = ls := by
  induction ls with
  | nil => exact absurd rfl hne
  | cons l ls' ih =>
    cases ls' with
    | nil =>
      show splitChar '\n' l = [l]
      exact splitChar_no_sep _ _ (h l (List.mem_cons_self l []))
    | cons l2 ls'' =>
      show splitChar '\n' (l ++ '\n' :: joinLinesChar (l2 :: ls'')) = _
      rw [splitChar_append _ _ _ (h l (List.mem_cons_self l _))]
      rw [ih (by simp) (fun x hx => h x (List.mem_cons_of_mem l hx))]

/-- A character different from the separator and absent from every line is
absent from the join. -/
theorem not_mem_joinLinesChar (x : Char) (ls : List (List Char)) (hx : ¬ x = '\n')
    (h : ∀ l ∈ ls, ¬ x ∈ l) : ¬ x ∈ joinLinesChar ls := by
  induction ls with
  | nil => simp [joinLinesChar]
  | cons l ls' ih =>
    cases ls' with
    | nil =>
      show ¬ x ∈ l
      exact h l (List.mem_cons_self l [])
    | cons l2 ls'' =>
      show ¬ x ∈ l ++ '\n' :: joinLinesChar (l2 :: ls'')
      intro hmem
      rcases List.mem_append.1 hmem with hmem | hmem
      · exact h l (List.mem_cons_self l _) hmem
      · rcases List.mem_cons.1 hmem with rfl | hmem
        · exact hx rfl
        · exact ih (fun y hy => h y (List.mem_cons_of_mem l hy)) hmem

/-- The continuation-join normalization is the identity on backslash-free
input. -/
theorem normJoinLinesAux_id (fuel : Nat) (l : List Char)
    (h : ∀ c ∈ l, ¬ c = '\\') : normJoinLinesAux fuel l = l := by
  induction fuel generalizing l with
  | zero => cases l <;> rfl
  | succ f ih =>
    cases l with
    | nil => rfl
    | cons c rest =>
      rw [normJoinLinesAux, if_neg (h c (List.mem_cons_self c rest))]
      rw [ih rest (fun x hx => h x (List.mem_cons_of_mem c hx))]

/-- The trailing-backslash normalization is the identity on backslash-free
input. -/
theorem normTrailingBackslashAux_id (fuel : Nat) (l : List Char)
    (h : ∀ c ∈ l, ¬ c = '\\') : normTrailingBackslashAux fuel l = l := by
  induction fuel generalizing l with
  | zero => cases l <;> rfl
  | succ f ih =>
    cases l with
    | nil => rfl
    | cons c rest =>
      rw [normTrailingBackslashAux, if_neg (h c (List.mem_cons_self c rest))]
      rw [ih rest (fun x hx => h x (List.mem_cons_of_mem c hx))]

/-- A double-dash pattern has no prefix match at the head of a list without
adjacent dashes. -/
theorem dd_not_lead (pt l : List Char) (hl : NoDD l) :
    ('-' :: '-' :: pt).isPrefixOf l = false := by
  cases l with
  | nil => rfl
  | cons a rest =>
    cases rest with
    | nil =>
      show (('-' == a) && ('-' :: pt).isPrefixOf []) = false
      simp [List.isPrefixOf]
    | cons b rest' =>
      show (('-' == a) && (('-' == b) && pt.isPrefixOf rest')) = false
      cases ha : ('-' == a : Bool)
      · simp
      · cases hb : ('-' == b : Bool)
        · simp [hb]
        · exfalso
          rw [beq_iff_eq] at ha hb
          exact (List.chain'_cons.1 hl).1 ⟨ha.symm, hb.symm⟩

/-- `NoDD` is preserved by dropping the head. -/
theorem NoDD.tail_cons (c : Char) (l : List Char) (h : NoDD (c :: l)) : NoDD l :=
  (List.chain'_cons'.1 h).2

/-- No double-dash pattern occurs in a list without adjacent dashes. -/
theorem firstOccur_dd_none (pt l : List Char) (hl : NoDD l) :
    firstOccur ('-' :: '-' :: pt) l = none := by
  induction l with
  | nil => rfl
  | cons c rest ih =>
    rw [firstOccur]
    rw [if_neg ?hne]
    · rw [ih (NoDD.tail_cons c rest hl)]
      rfl
    case hne =>
      rw [dd_not_lead pt (c :: rest) hl]
      exact Bool.false_ne_true

/-- The hash regex finds nothing in a line without adjacent dashes. -/
theorem hashCapture_none (l : List Char) (hl : NoDD l) : hashCapture l = none := by
  induction l with
  | nil => rfl
  | cons c rest ih =>
    rw [hashCapture]
    show (if ("--hash=sha256:".data.isPrefixOf (c :: rest)) = true then _ else _) = none
    rw [if_neg ?hne]
    · exact ih (NoDD.tail_cons c rest hl)
    case hne =>
      have : "--hash=sha256:".data = '-' :: '-' :: "hash=sha256:".data := rfl
      rw [this, dd_not_lead _ (c :: rest) hl]
      exact Bool.false_ne_true

/-- `dropHashSuffix` is the identity on a line without adjacent dashes. -/
theorem dropHashSuffix_nodd (l : List Char) (hl : NoDD l) : dropHashSuffix l = l := by
  unfold dropHashSuffix
  have : "--hash=".data = '-' :: '-' :: "hash=".data := rfl
  rw [this, firstOccur_dd_none _ l hl]

/-- A double-dash pattern does not match when the first two characters are
not both dashes. -/
theorem dd_not_lead_pair (pt : List Char) (a b : Char) (rest : List Char)
    (hab : ¬ (a = '-' ∧ b = '-')) :
    ('-' :: '-' :: pt).isPrefixOf (a :: b :: rest) = false := by
  show (('-' == a) && (('-' == b) && pt.isPrefixOf rest)) = false
  cases ha : ('-' == a : Bool)
  · simp
  · cases hb : ('-' == b : Bool)
    · simp [hb]
    · exfalso
      rw [beq_iff_eq] at ha hb
      exact hab ⟨ha.symm, hb.symm⟩

/-- A list is a Boolean prefix of itself followed by anything. -/
theorem isPrefixOf_self_append (l t : List Char) : l.isPrefixOf (l ++ t) = true := by
  induction l with
  | nil => cases t <;> rfl
  | cons a as ih =>
    show ((a == a) && as.isPrefixOf (as ++ t)) = true
    simp [ih]

/-- The hash-capture scan skips a position with no match. -/
theorem hashCapture_cons_skip (c : Char) (rest : List Char)
    (hnp : "--hash=sha256:".data.isPrefixOf (c :: rest) = false) :
    hashCapture (c :: rest) = hashCapture rest := by
  rw [hashCapture]
  show (if ("--hash=sha256:".data.isPrefixOf (c :: rest)) = true then _ else _) = _
  rw [if_neg (by rw [hnp]; exact Bool.false_ne_true)]

/-- The first-occurrence scan skips a position with no match. -/
theorem firstOccur_cons_skip (pat : List Char) (c : Char) (rest : List Char)
    (hnp : pat.isPrefixOf (c :: rest) = false) :
    firstOccur pat (c :: rest) = (firstOccur pat rest).map (· + 1) := by
  rw [firstOccur]
  rw [if_neg (by rw [hnp]; exact Bool.false_ne_true)]

/-- The hash regex captures exactly the appended hex digest: the part of
the line before the directive has no adjacent dashes, the directive is
separated by a space, and the digest is nonempty lowercase hex. -/
theorem hashCapture_append (xs h : List Char) (hxs : NoDD xs)
    (hh : h ≠ []) (hhex : ∀ c ∈ h, isHexLower c = true) :
    hashCapture (xs ++ ' ' :: ("--hash=sha256:".data ++ h)) = some h := by
  induction xs with
  | nil =>
    rw [List.nil_append]
    rw [hashCapture_cons_skip ' ' _ (by
      show (('-' == ' ') && _) = false
      simp)]
    show hashCapture ('-' :: ("-hash=sha256:".data ++ h)) = some h
    rw [hashCapture]
    rw [if_pos (show ("--hash=sha256:".data.isPrefixOf
        ('-' :: ("-hash=sha256:".data ++ h))) = true from isPrefixOf_self_append _ h)]
    show (if (("--hash=sha256:".data ++ h).drop
        "--hash=sha256:".data.length |>.takeWhile isHexLower).isEmpty = true then _
      else some (("--hash=sha256:".data ++ h).drop
        "--hash=sha256:".data.length |>.takeWhile isHexLower)) = some h
    rw [List.drop_left, takeWhile_eq_self _ _ hhex]
    cases h with
    | nil => exact absurd rfl hh
    | cons a t => rfl
  | cons x xs' ih =>
    have hstep : "--hash=sha256:".data.isPrefixOf
        ((x :: xs') ++ ' ' :: ("--hash=sha256:".data ++ h)) = false := by
      cases xs' with
      | nil =>
        exact dd_not_lead_pair _ x ' ' _ (fun hc => by
          exact absurd hc.2 (by decide))
      | cons y ys =>
        exact dd_not_lead_pair _ x y _ (List.chain'_cons.1 hxs).1
    rw [List.cons_append, hashCapture_cons_skip x _ (by
      rw [← List.cons_append]
      exact hstep)]
    exact ih (NoDD.tail_cons x xs' hxs)

/-- The first `--hash=` occurrence in an exported line with a digest is at
the space before the directive plus one. -/
theorem firstOccur_hash_append (xs tl : List Char) (hxs : NoDD xs) :
    firstOccur "--hash=".data (xs ++ ' ' :: ("--hash=sha256:".data ++ tl))
      = some (xs.length + 1) := by
  induction xs with
  | nil =>
    rw [List.nil_append]
    rw [firstOccur_cons_skip _ ' ' _ (by
      show (('-' == ' ') && _) = false
      simp)]
    have hpre : "--hash=".data.isPrefixOf ('-' :: ("-hash=sha256:".data ++ tl)) = true :=
      isPrefixOf_self_append "--hash=".data ("sha256:".data ++ tl)
    show ((firstOccur "--hash=".data ('-' :: ("-hash=sha256:".data ++ tl))).map (· + 1))
      = some 1
    rw [firstOccur, if_pos hpre]
    rfl
  | cons x xs' ih =>
    have hstep : "--hash=".data.isPrefixOf
        ((x :: xs') ++ ' ' :: ("--hash=sha256:".data ++ tl)) = false := by
      cases xs' with
      | nil => exact dd_not_lead_pair _ x ' ' _ (fun hc => absurd hc.2 (by decide))
      | cons y ys => exact dd_not_lead_pair _ x y _ (List.chain'_cons.1 hxs).1
    rw [List.cons_append, firstOccur_cons_skip _ x _ (by
      rw [← List.cons_append]
      exact hstep)]
    rw [ih (NoDD.tail_cons x xs' hxs)]
    rfl

/-- Stripping the hash directive from an exported line with a digest
recovers the part before the separating space. -/
theorem dropHashSuffix_append (xs tl : List Char) (hxs : NoDD xs)
    (hnws : ∀ c ∈ xs, c.isWhitespace = false) :
    dropHashSuffix (xs ++ ' ' :: ("--hash=sha256:".data ++ tl)) = xs := by
  unfold dropHashSuffix
  rw [firstOccur_hash_append xs tl hxs]
  have htake : (xs ++ ' ' :: ("--hash=sha256:".data ++ tl)).take (xs.length + 1)
      = xs ++ [' '] := by
    rw [List.take_append_eq_append_take]
    rw [List.take_of_length_le (Nat.le_succ _)]
    congr 1
    rw [Nat.succ_sub (Nat.le_refl _), Nat.sub_self]
    rfl
  show (((xs ++ ' ' :: ("--hash=sha256:".data ++ tl)).take
      (xs.length + 1)).reverse.dropWhile Char.isWhitespace).reverse = xs
  rw [htake, List.reverse_append]
  show ((' ' :: xs.reverse).dropWhile Char.isWhitespace).reverse = xs
  rw [List.dropWhile_cons]
  rw [show (' '.isWhitespace : Bool) = true from rfl]
  simp only [if_true]
  rw [dropWhile_eq_self _ _ ?hlast, List.reverse_reverse]
  case hlast =>
    intro c hc
    rw [List.head?_reverse] at hc
    obtain ⟨hne, heq⟩ := List.mem_getLast?_eq_getLast (Option.mem_def.2 hc)
    exact hnws c (heq ▸ List.getLast_mem hne)

/-- `getLast?` produces a member. -/
theorem mem_of_getLast?_eq (l : List Char) (c : Char) (hc : l.getLast? = some c) :
    c ∈ l := by
  obtain ⟨hne, heq⟩ := List.mem_getLast?_eq_getLast (Option.mem_def.2 hc)
  exact heq ▸ List.getLast_mem hne

/-- Composing `NoDD` across an append. -/
theorem NoDD_append (a b : List Char) (ha : NoDD a) (hb : NoDD b)
    (hab : ∀ x, a.getLast? = some x → ∀ y, b.head? = some y → ¬ (x = '-' ∧ y = '-')) :
    NoDD (a ++ b) := by
  rw [NoDD, List.chain'_append]
  exact ⟨ha, hb, fun x hx y hy =>
    hab x (Option.mem_def.1 hx) y (Option.mem_def.1 hy)⟩

/-- Stripping the leading `==` from the version constraint. -/
theorem replaceFirstOpRun_eqeq (V : List Char) (hv : ∀ c ∈ V, isOpChar c = false) :
    replaceFirstOpRun ('=' :: '=' :: V) = V := by
  rw [replaceFirstOpRun]
  rw [if_pos (show isOpChar '=' = true from rfl)]
  rw [List.dropWhile_cons]
  rw [show isOpChar '=' = true from rfl]
  simp only [if_true]
  exact dropWhile_eq_self _ _ (fun c hc => hv c (List.mem_of_mem_head? hc))

/-- The version-constraint regex splits an exported line at the `==`. -/
theorem specSplit_structured (B V : List Char) (hB : B ≠ [])
    (hBop : ∀ c ∈ B, isOpChar c = false) :
    specSplit (B ++ '=' :: '=' :: V) = some (B, '=' :: '=' :: V) := by
  have htw : (B ++ '=' :: '=' :: V).takeWhile (fun c => !isOpChar c) = B :=
    takeWhile_append_cons _ B '=' _ (fun c hc => by rw [hBop c hc]; rfl) (by rfl)
  have hBe : B.isEmpty = false := by
    cases B with
    | nil => exact absurd rfl hB
    | cons a t => rfl
  simp only [specSplit, htw, List.drop_left, hBe]
  rfl

/-- A name character is not the opening bracket. -/
theorem nameChar_not_bracket (c : Char) (h : nameChar c = true) : (c == '[') = false := by
  simp only [nameChar, Bool.or_eq_true, beq_iff_eq] at h
  rcases h with ((h | rfl) | rfl) | rfl
  · exact alnum_ne c '[' h (by decide)
  all_goals decide

/-- Decomposition of the emitted base `fullName || name` for a well-formed
record: the canonical name followed by a possibly-empty bracketed extras
tail, with the global no-double-dash property. -/
theorem base_facts (p : Package) (hwf : WfPackage p) :
    ∃ ext : List Char,
      (jsOrName p.fullName p.name).data = p.name.data ++ ext ∧
      (ext = [] ∨ ext.headD ' ' = '[') ∧
      (∀ c ∈ ext, extrasTailChar c = true) ∧
      NoDD (p.name.data ++ ext) := by
  obtain ⟨⟨hn1, hn2, hn3, hn4⟩, -, -, hf⟩ := hwf
  cases hfn : p.fullName with
  | none =>
    refine ⟨[], by simp [jsOrName], Or.inl rfl, by simp, ?_⟩
    rw [List.append_nil]
    exact hn4
  | some f =>
    rw [WfFullName, hfn] at hf
    obtain ⟨hpre, hext⟩ := hf
    obtain ⟨ext, hdec⟩ := isPrefixOf_exists _ _ hpre
    have hfne : (f == "") = false := by
      cases hbe : f == ""
      · rfl
      · rw [beq_iff_eq] at hbe
        subst hbe
        rw [show ("" : String).data = ([] : List Char) from rfl] at hdec
        exact absurd (List.append_eq_nil.1 hdec.symm).1 hn1
    have hbase : (jsOrName (some f) p.name).data = f.data := by
      simp [jsOrName, hfne]
    have hdrop : f.data.drop p.name.data.length = ext := by
      rw [hdec, List.drop_left]
    rw [hdrop] at hext
    refine ⟨ext, by rw [hbase, hdec], ?_, ?_, ?_⟩
    · rcases hext with h | h
      · exact Or.inl h
      · exact Or.inr h.1
    · rcases hext with h | h
      · subst h
        simp
      · intro c hc
        exact List.all_eq_true.1 h.2.1 c hc
    · rcases hext with h | h
      · subst h
        rw [List.append_nil]
        exact hn4
      · rw [← hdec]
        exact h.2.2

/-- The character data of an exported line under `standard` format with
hashes enabled: base, `==`, version, and the optional hash directive. -/
theorem formatLine_data (settings : Settings) (p : Package)
    (hfmt : settings.exportFormat = ExportFormat.standard)
    (hinc : settings.includeHashes = true) (hwf : WfPackage p) :
    (formatLine settings p).data
      = (jsOrName p.fullName p.name).data ++ '=' :: '=' :: (p.version.data ++
        (match p.hash with
         | some h => ' ' :: ("--hash=sha256:".data ++ h.data)
         | none => [])) := by
  obtain ⟨-, -, hh, -⟩ := hwf
  unfold formatLine
  rw [hfmt]
  cases hhash : p.hash with
  | none =>
    simp [String.data_append]
  | some h =>
    have hne : (h == "") = false := by
      rw [hhash] at hh
      obtain ⟨h1, -⟩ := hh
      cases hbe : h == ""
      · rfl
      · rw [beq_iff_eq] at hbe
        subst hbe
        exact absurd rfl h1
    rw [hinc]
    simp [hne, String.data_append]

/-- `contains` is false without membership. -/
theorem contains_eq_false (l : List Char) (c : Char) (h : ¬ c ∈ l) :
    l.contains c = false := by
  simpa using h

/-- `contains` is true with membership. -/
theorem contains_eq_true (l : List Char) (c : Char) (h : c ∈ l) :
    l.contains c = true := by
  simpa using h

/-- `trimChars` is the identity on whitespace-free lists. -/
theorem trimChars_of_no_ws (l : List Char) (hl : ∀ c ∈ l, c.isWhitespace = false) :
    trimChars l = l :=
  trimChars_eq_self l (fun c hc => hl c (List.mem_of_mem_head? hc))
    (fun c hc => hl c (mem_of_getLast?_eq l c hc))

/-- `String.asString` undoes `String.data`. -/
theorem asString_data (s : String) : s.data.asString = s := rfl

/-- Re-parsing one exported line of a well-formed record recovers the
record's name, version and hash (the parser re-attaches the emitted base
text as `fullName`). -/
theorem parseReqLine_roundtrip (settings : Settings) (p : Package)
    (hfmt : settings.exportFormat = ExportFormat.standard)
    (hinc : settings.includeHashes = true) (hwf : WfPackage p) :
    parseReqLine (formatLine settings p).data
      = { name := p.name, version := p.version, isDependency := false,
          hash := p.hash, fullName := some (jsOrName p.fullName p.name) } := by
  obtain ⟨ext, hB, hexthead, hextchar, hnodd⟩ := base_facts p hwf
  obtain ⟨⟨hn1, hn2, hn3, hn4⟩, ⟨hv1, hv2⟩, hh, -⟩ := id hwf
  have hBchar : ∀ c ∈ p.name.data ++ ext, extrasTailChar c = true := by
    intro c hc
    rcases List.mem_append.1 hc with hc | hc
    · exact nameChar_extras c (List.all_eq_true.1 hn2 c hc)
    · exact hextchar c hc
  have hVchar : ∀ c ∈ p.version.data, versionChar c = true :=
    fun c hc => List.all_eq_true.1 hv1 c hc
  have hBne : p.name.data ++ ext ≠ [] := by
    cases hnp : p.name.data with
    | nil => exact absurd hnp hn1
    | cons a t => simp [hnp]
  have hBop : ∀ c ∈ p.name.data ++ ext, isOpChar c = false :=
    fun c hc => (extrasTailChar_facts c (hBchar c hc)).2.1
  have hBws : ∀ c ∈ p.name.data ++ ext, c.isWhitespace = false :=
    fun c hc => (extrasTailChar_facts c (hBchar c hc)).1
  have hBsemi : ∀ c ∈ p.name.data ++ ext, (c == ';') = false :=
    fun c hc => (extrasTailChar_facts c (hBchar c hc)).2.2.1
  have hVop : ∀ c ∈ p.version.data, isOpChar c = false :=
    fun c hc => (versionChar_facts c (hVchar c hc)).2.1
  have hVws : ∀ c ∈ p.version.data, c.isWhitespace = false :=
    fun c hc => (versionChar_facts c (hVchar c hc)).1
  have hVsemi : ∀ c ∈ p.version.data, (c == ';') = false :=
    fun c hc => (versionChar_facts c (hVchar c hc)).2.2.1
  have heeVnodd : NoDD ('=' :: '=' :: p.version.data) := by
    rw [NoDD, List.chain'_cons]
    refine ⟨fun hc => absurd hc.1 (by decide), ?_⟩
    rw [List.chain'_cons']
    exact ⟨fun y hy hc => absurd hc.1 (by decide), hv2⟩
  have hxsnodd : NoDD ((p.name.data ++ ext) ++ '=' :: '=' :: p.version.data) := by
    refine NoDD_append _ _ hnodd heeVnodd ?_
    intro x hx y hy hc
    simp only [List.head?_cons, Option.some.injEq] at hy
    rw [← hy] at hc
    exact absurd hc.2 (by decide)
  have hxsws : ∀ c ∈ (p.name.data ++ ext) ++ '=' :: '=' :: p.version.data,
      c.isWhitespace = false := by
    intro c hc
    rcases List.mem_append.1 hc with hc | hc
    · exact hBws c hc
    · rcases List.mem_cons.1 hc with rfl | hc
      · rfl
      · rcases List.mem_cons.1 hc with rfl | hc
        · rfl
        · exact hVws c hc
  have hxssemi : ∀ c ∈ (p.name.data ++ ext) ++ '=' :: '=' :: p.version.data,
      (c == ';') = false := by
    intro c hc
    rcases List.mem_append.1 hc with hc | hc
    · exact hBsemi c hc
    · rcases List.mem_cons.1 hc with rfl | hc
      · rfl
      · rcases List.mem_cons.1 hc with rfl | hc
        · rfl
        · exact hVsemi c hc
  have hbasecomp : (if (p.name.data ++ ext).contains '['
        then (p.name.data ++ ext).takeWhile (fun c => !(c == '['))
        else p.name.data ++ ext) = p.name.data := by
    rcases hexthead with rfl | hhead
    · rw [List.append_nil]
      rw [if_neg ?hnc]
      case hnc =>
        intro hcontains
        have hmem : '[' ∈ p.name.data := by
          have := contains_eq_true p.name.data '['
          cases hcc : p.name.data.contains '['
          · rw [hcc] at hcontains
            exact absurd hcontains (by simp)
          · simpa using hcc
        exact absurd (nameChar_not_bracket '[' (List.all_eq_true.1 hn2 '[' hmem))
          (by decide)
    · cases hext : ext with
      | nil =>
        subst hext
        exact absurd hhead (by decide)
      | cons e0 etl =>
        subst hext
        simp only [List.headD_cons] at hhead
        subst hhead
        rw [if_pos ?hc]
        case hc =>
          exact contains_eq_true _ _ (List.mem_append.2 (Or.inr (List.mem_cons_self _ _)))
        exact takeWhile_append_cons _ _ '[' _
          (fun c hc => by rw [nameChar_not_bracket c (List.all_eq_true.1 hn2 c hc)]; rfl)
          (by decide)
  have htrimB := trimChars_of_no_ws _ hBws
  have htrimV : trimChars ('=' :: '=' :: p.version.data) = '=' :: '=' :: p.version.data := by
    refine trimChars_of_no_ws _ ?_
    intro c hc
    rcases List.mem_cons.1 hc with rfl | hc
    · rfl
    · rcases List.mem_cons.1 hc with rfl | hc
      · rfl
      · exact hVws c hc
  have htrimmed := trimChars_of_no_ws _ hxsws
  have hsemiW : ((p.name.data ++ ext) ++ '=' :: '=' :: p.version.data).takeWhile
      (fun c => !(c == ';')) = (p.name.data ++ ext) ++ '=' :: '=' :: p.version.data :=
    takeWhile_eq_self _ _ (fun c hc => by rw [hxssemi c hc]; rfl)
  have hsplit := specSplit_structured (p.name.data ++ ext) p.version.data hBne hBop
  have hrun := replaceFirstOpRun_eqeq p.version.data hVop
  have hfullstr : (p.name.data ++ ext).asString = jsOrName p.fullName p.name := by
    rw [← hB]
    rfl
  rw [formatLine_data settings p hfmt hinc hwf, hB]
  cases hhash : p.hash with
  | none =>
    rw [List.append_nil]
    have hcap := hashCapture_none _ hxsnodd
    have hdropped := dropHashSuffix_nodd _ hxsnodd
    simp only [parseReqLine, hcap, hdropped, htrimmed, hsemiW, hsplit, htrimB, htrimV,
      hrun, hbasecomp, Option.map_none']
    rw [asString_data, asString_data, hfullstr]
  | some h =>
    have hassoc : (p.name.data ++ ext) ++ '=' :: '=' :: (p.version.data ++
        (' ' :: ("--hash=sha256:".data ++ h.data)))
        = ((p.name.data ++ ext) ++ '=' :: '=' :: p.version.data) ++
          ' ' :: ("--hash=sha256:".data ++ h.data) := by
      simp
    rw [hassoc]
    have hhd : h.data ≠ [] ∧ h.data.all isHexLower = true := by
      rw [hhash] at hh
      exact hh
    have hcap := hashCapture_append _ h.data hxsnodd hhd.1
      (fun c hc => List.all_eq_true.1 hhd.2 c hc)
    have hdropped := dropHashSuffix_append _ h.data hxsnodd hxsws
    simp only [parseReqLine, hcap, hdropped, htrimmed, hsemiW, hsplit, htrimB, htrimV,
      hrun, hbasecomp, Option.map_some']
    rw [asString_data, asString_data, asString_data, hfullstr]

/-- A non-alphanumeric character differs from any alphanumeric one. -/
theorem ne_alnum (x c : Char) (hc : c.isAlphanum = true) (hx : x.isAlphanum = false) :
    (x == c) = false := by
  cases hbe : x == c
  · rfl
  · rw [beq_iff_eq] at hbe
    rw [← hbe, hx] at hc
    exact hc.symm

/-- The side facts about one exported line of a well-formed record: it has
no newline and no backslash, it trims to itself, and it survives the
blank/comment/option-line filter. -/
theorem formatLine_side_facts (settings : Settings) (p : Package)
    (hfmt : settings.exportFormat = ExportFormat.standard)
    (hinc : settings.includeHashes = true) (hwf : WfPackage p) :
    (∀ c ∈ (formatLine settings p).data, (c == '\n') = false ∧ (c == '\\') = false) ∧
    trimChars (formatLine settings p).data = (formatLine settings p).data ∧
    (formatLine settings p).data ≠ [] ∧
    (['#'].isPrefixOf (formatLine settings p).data) = false ∧
    (['-', '-'].isPrefixOf (formatLine settings p).data) = false := by
  obtain ⟨ext, hB, hexthead, hextchar, hnodd⟩ := base_facts p hwf
  obtain ⟨⟨hn1, hn2, hn3, hn4⟩, ⟨hv1, hv2⟩, hh, -⟩ := id hwf
  have hBchar : ∀ c ∈ p.name.data ++ ext, extrasTailChar c = true := by
    intro c hc
    rcases List.mem_append.1 hc with hc | hc
    · exact nameChar_extras c (List.all_eq_true.1 hn2 c hc)
    · exact hextchar c hc
  have hdata := formatLine_data settings p hfmt hinc hwf
  rw [hdata, hB]
  have hallchars : ∀ c ∈ (p.name.data ++ ext) ++ '=' :: '=' :: (p.version.data ++
      (match p.hash with
       | some h => ' ' :: ("--hash=sha256:".data ++ h.data)
       | none => [])), (c == '\n') = false ∧ (c == '\\') = false := by
    intro c hc
    rcases List.mem_append.1 hc with hc | hc
    · have := extrasTailChar_facts c (hBchar c hc)
      exact ⟨this.2.2.2.1, this.2.2.2.2⟩
    · rcases List.mem_cons.1 hc with rfl | hc
      · exact ⟨rfl, rfl⟩
      · rcases List.mem_cons.1 hc with rfl | hc
        · exact ⟨rfl, rfl⟩
        · rcases List.mem_append.1 hc with hc | hc
          · have := versionChar_facts c (List.all_eq_true.1 hv1 c hc)
            exact ⟨this.2.2.2.1, this.2.2.2.2⟩
          · cases hhash : p.hash with
            | none =>
              rw [hhash] at hc
              exact absurd hc (by simp)
            | some h =>
              rw [hhash] at hc
              rcases List.mem_cons.1 hc with rfl | hc
              · exact ⟨rfl, rfl⟩
              · rcases List.mem_append.1 hc with hc | hc
                · have hpat : ∀ x ∈ "--hash=sha256:".data,
                      (x == '\n') = false ∧ (x == '\\') = false := by decide
                  exact hpat c hc
                · rw [hhash] at hh
                  have := isHexLower_alnum c (List.all_eq_true.1 hh.2 c hc)
                  exact ⟨alnum_ne c '\n' this (by decide), alnum_ne c '\\' this (by decide)⟩
  refine ⟨hallchars, ?_, ?_, ?_, ?_⟩
  · -- trims to itself
    refine trimChars_eq_self _ ?_ ?_
    · intro c hc
      cases hnp : p.name.data with
      | nil => exact absurd hnp hn1
      | cons a t =>
        rw [hnp] at hc
        simp only [List.cons_append, List.head?_cons, Option.some.injEq] at hc
        subst hc
        rw [hnp] at hn3
        exact alnum_not_ws a hn3
    · intro c hc
      cases hhash : p.hash with
      | none =>
        rw [hhash] at hc
        simp only [List.append_nil] at hc
        have hc' : c ∈ (p.name.data ++ ext) ++ '=' :: '=' :: p.version.data := by
          have := mem_of_getLast?_eq _ _ hc
          simpa using this
        rcases List.mem_append.1 hc' with hm | hm
        · exact (extrasTailChar_facts c (hBchar c hm)).1
        · rcases List.mem_cons.1 hm with rfl | hm
          · rfl
          · rcases List.mem_cons.1 hm with rfl | hm
            · rfl
            · exact (versionChar_facts c (List.all_eq_true.1 hv1 c hm)).1
      | some h =>
        rw [hhash] at hc hh
        rw [show ((p.name.data ++ ext) ++ '=' :: '=' :: (p.version.data ++
            (' ' :: ("--hash=sha256:".data ++ h.data))))
            = ((p.name.data ++ ext) ++ '=' :: '=' :: p.version.data) ++
              ((' ' :: "--hash=sha256:".data) ++ h.data) from by simp] at hc
        rw [List.getLast?_append_of_ne_nil _ (by simp)] at hc
        rw [List.getLast?_append_of_ne_nil _ ?hne] at hc
        case hne =>
          cases hhd : h.data with
          | nil => exact absurd hhd hh.1
          | cons x xs => simp [hhd]
        have hmem := mem_of_getLast?_eq _ _ hc
        exact alnum_not_ws c (isHexLower_alnum c (List.all_eq_true.1 hh.2 c hmem))
  · -- nonempty
    cases hnp : p.name.data with
    | nil => exact absurd hnp hn1
    | cons a t => simp [hnp]
  · -- not a comment line
    cases hnp : p.name.data with
    | nil => exact absurd hnp hn1
    | cons a t =>
      rw [hnp] at hn3
      show (('#' == a) && _) = false
      rw [ne_alnum '#' a hn3 (by decide)]
      rfl
  · -- not an option line
    cases hnp : p.name.data with
    | nil => exact absurd hnp hn1
    | cons a t =>
      rw [hnp] at hn3
      show (('-' == a) && _) = false
      rw [ne_alnum '-' a hn3 (by decide)]
      rfl

/-- The empty pattern is a prefix of anything. -/
theorem nil_isPrefixOf (l : List Char) : ([] : List Char).isPrefixOf l = true := by
  cases l <;> rfl

/-- Parsing a join of newline- and backslash-free lines processes exactly
those lines: the normalizations are the identity and the split undoes the
join. -/
theorem parse_of_lines (lines : List (List Char))
    (hgood : ∀ l ∈ lines, ∀ c ∈ l, ¬ c = '\n' ∧ ¬ c = '\\') :
    parseRequirementsContent (joinLinesChar lines).asString
      = ((lines.filter (fun line =>
          let t := trimChars line
          !t.isEmpty && !(['#'].isPrefixOf t) && !(['-', '-'].isPrefixOf t))).map
            parseReqLine).filter (fun pkg => !(pkg.name == "")) := by
  have hnb : ∀ c ∈ joinLinesChar lines, ¬ c = '\\' := by
    intro c hc hcb
    subst hcb
    exact not_mem_joinLinesChar '\\' lines (by decide)
      (fun l hl hm => (hgood l hl '\\' hm).2 rfl) hc
  have hnorm1 : normJoinLines (joinLinesChar lines) = joinLinesChar lines :=
    normJoinLinesAux_id _ _ hnb
  have hnorm2 : normTrailingBackslash (joinLinesChar lines) = joinLinesChar lines :=
    normTrailingBackslashAux_id _ _ hnb
  rw [parseRequirementsContent]
  rw [show ((joinLinesChar lines).asString).data = joinLinesChar lines from rfl]
  rw [hnorm1, hnorm2]
  cases hls : lines with
  | nil =>
    rfl
  | cons l0 ls0 =>
    rw [← hls]
    rw [splitChar_joinLinesChar lines (by rw [hls]; exact List.cons_ne_nil l0 ls0)
      (fun l hl hm => (hgood l hl '\n' hm).1 rfl)]

/-- C9 amended: for well-formed records (names over the package-name
alphabet without `--`, versions over the version alphabet, digests absent
or nonempty lowercase hex, `fullName` the name plus a bracketed extras
tail) and a whitespace- and backslash-free custom index, parsing the
standard-format export with hashes enabled reproduces the multiset of
`(name, version, hash)` triples of the exported selection. -/
theorem c9_roundtrip_wellformed (packages : List Package) (settings : Settings)
    (hfmt : settings.exportFormat = ExportFormat.standard)
    (hinc : settings.includeHashes = true)
    (hidx : WfIndex settings.customIndex)
    (hwf : ∀ p ∈ packages, WfPackage p) :
    List.Perm
      ((parseRequirementsContent (generateRequirementsContent packages settings)).map
        pkgTriple)
      ((selectedForExport packages settings).map pkgTriple) := by
  have hwfsel : ∀ p ∈ selectedForExport packages settings, WfPackage p := by
    intro p hp
    rw [selectedForExport] at hp
    split at hp
    · exact hwf p hp
    · exact hwf p (List.mem_of_mem_filter hp)
  have hperm : List.Perm (sortByName (selectedForExport packages settings))
      (selectedForExport packages settings) := List.perm_insertionSort _ _
  have hwfsort : ∀ p ∈ sortByName (selectedForExport packages settings), WfPackage p :=
    fun p hp => hwfsel p (hperm.mem_iff.1 hp)
  have hgen : generateRequirementsContent packages settings
      = (joinLinesChar (((if !(settings.customIndex == "") then
            (["--index-url " ++ settings.customIndex, ""] : List String) else []) ++
          (sortByName (selectedForExport packages settings)).map
            (formatLine settings)).map String.data)).asString := rfl
  rw [hgen, List.map_append]
  have hgood : ∀ l ∈ ((if !(settings.customIndex == "") then
        (["--index-url " ++ settings.customIndex, ""] : List String) else []).map
          String.data) ++
        (((sortByName (selectedForExport packages settings)).map
          (formatLine settings)).map String.data),
      ∀ c ∈ l, ¬ c = '\n' ∧ ¬ c = '\\' := by
    intro l hl c hc
    rcases List.mem_append.1 hl with hl | hl
    · by_cases hci : (settings.customIndex == "") = true
      · rw [hci] at hl
        simp at hl
      · rw [Bool.not_eq_true] at hci
        rw [hci] at hl
        simp only [Bool.not_false, if_true, List.map_cons, List.map_nil] at hl
        rcases List.mem_cons.1 hl with rfl | hl
        · rw [String.data_append] at hc
          rcases List.mem_append.1 hc with hc | hc
          · have hlit : ∀ x ∈ "--index-url ".data, ¬ x = '\n' ∧ ¬ x = '\\' := by decide
            exact hlit c hc
          · have := List.all_eq_true.1 hidx c hc
            rw [Bool.and_eq_true] at this
            constructor
            · intro hcn
              subst hcn
              exact absurd this.1 (by decide)
            · intro hcb
              subst hcb
              exact absurd this.2 (by decide)
        · rcases List.mem_cons.1 hl with rfl | hl
          · simp at hc
          · simp at hl
    · obtain ⟨s, hs, rfl⟩ := List.mem_map.1 hl
      obtain ⟨p, hp, rfl⟩ := List.mem_map.1 hs
      have hside := (formatLine_side_facts settings p hfmt hinc (hwfsort p hp)).1 c hc
      constructor
      · intro hcn
        subst hcn
        rw [beq_self_eq_true] at hside
        exact absurd hside.1 (by decide)
      · intro hcb
        subst hcb
        rw [beq_self_eq_true] at hside
        exact absurd hside.2 (by decide)
  rw [parse_of_lines _ hgood, List.filter_append]
  have hhdrfilter : (((if !(settings.customIndex == "") then
        (["--index-url " ++ settings.customIndex, ""] : List String) else []).map
          String.data).filter (fun line =>
          let t := trimChars line
          !t.isEmpty && !(['#'].isPrefixOf t) && !(['-', '-'].isPrefixOf t))) = [] := by
    by_cases hci : (settings.customIndex == "") = true
    · rw [hci]
      rfl
    · rw [Bool.not_eq_true] at hci
      rw [hci]
      simp only [Bool.not_false, if_true, List.map_cons, List.map_nil]
      have hcine : settings.customIndex.data ≠ [] := by
        intro hd
        have hempty : settings.customIndex = "" := by
          calc settings.customIndex = String.mk settings.customIndex.data := rfl
            _ = String.mk [] := by rw [hd]
            _ = "" := rfl
        rw [hempty] at hci
        simp at hci
      have htrim1 : trimChars ("--index-url " ++ settings.customIndex).data
          = ("--index-url " ++ settings.customIndex).data := by
        refine trimChars_eq_self _ ?_ ?_
        · intro c hc
          rw [String.data_append] at hc
          rw [show ("--index-url ".data ++ settings.customIndex.data).head?
              = some '-' from rfl] at hc
          obtain rfl := Option.some.inj hc
          rfl
        · intro c hc
          rw [String.data_append,
            List.getLast?_append_of_ne_nil _ hcine] at hc
          have hmem := mem_of_getLast?_eq _ _ hc
          have := List.all_eq_true.1 hidx c hmem
          rw [Bool.and_eq_true] at this
          rw [Bool.not_eq_true'] at this
          exact this.1
      rw [List.filter_cons, List.filter_cons]
      have hp1 : (let t := trimChars ("--index-url " ++ settings.customIndex).data
          !t.isEmpty && !(['#'].isPrefixOf t) && !(['-', '-'].isPrefixOf t)) = false := by
        show (!(trimChars ("--index-url " ++ settings.customIndex).data).isEmpty &&
          !(['#'].isPrefixOf (trimChars ("--index-url " ++ settings.customIndex).data)) &&
          !(['-', '-'].isPrefixOf (trimChars ("--index-url " ++ settings.customIndex).data)))
            = false
        rw [htrim1]
        have hdd : (['-', '-'].isPrefixOf ("--index-url " ++ settings.customIndex).data)
            = true := by
          rw [String.data_append]
          show (('-' == '-') && (('-' == '-') &&
            ([] : List Char).isPrefixOf ("index-url ".data ++ settings.customIndex.data)))
              = true
          simp [nil_isPrefixOf]
        rw [hdd]
        simp
      rw [hp1]
      have hp2 : (let t := trimChars ("" : String).data
          !t.isEmpty && !(['#'].isPrefixOf t) && !(['-', '-'].isPrefixOf t)) = false := by
        decide
      rw [hp2]
      rfl
  have hbodyfilter : ((((sortByName (selectedForExport packages settings)).map
        (formatLine settings)).map String.data).filter (fun line =>
          let t := trimChars line
          !t.isEmpty && !(['#'].isPrefixOf t) && !(['-', '-'].isPrefixOf t)))
      = (((sortByName (selectedForExport packages settings)).map
        (formatLine settings)).map String.data) := by
    rw [List.filter_eq_self]
    intro l hl
    obtain ⟨s, hs, rfl⟩ := List.mem_map.1 hl
    obtain ⟨p, hp, rfl⟩ := List.mem_map.1 hs
    obtain ⟨-, htrim, hne, hpre1, hpre2⟩ :=
      formatLine_side_facts settings p hfmt hinc (hwfsort p hp)
    show (!(trimChars (formatLine settings p).data).isEmpty &&
      !(['#'].isPrefixOf (trimChars (formatLine settings p).data)) &&
      !(['-', '-'].isPrefixOf (trimChars (formatLine settings p).data))) = true
    rw [htrim, hpre1, hpre2]
    have hie : (formatLine settings p).data.isEmpty = false := by
      cases hd : (formatLine settings p).data with
      | nil => exact absurd hd hne
      | cons a t => rfl
    rw [hie]
    rfl
  rw [hhdrfilter, hbodyfilter, List.nil_append]
  rw [List.map_map, List.map_map]
  have hmapparse : ((sortByName (selectedForExport packages settings)).map
      ((parseReqLine ∘ String.data) ∘ formatLine settings))
      = (sortByName (selectedForExport packages settings)).map (fun p =>
        { name := p.name, version := p.version, isDependency := false,
          hash := p.hash, fullName := some (jsOrName p.fullName p.name) }) :=
    List.map_congr_left (fun p hp =>
      parseReqLine_roundtrip settings p hfmt hinc (hwfsort p hp))
  rw [hmapparse]
  rw [List.filter_eq_self.2 ?hnames]
  case hnames =>
    intro x hx
    obtain ⟨p, hp, rfl⟩ := List.mem_map.1 hx
    have hn := (hwfsort p hp).1.1
    show (!(p.name == "")) = true
    cases hbe : p.name == ""
    · rfl
    · rw [beq_iff_eq] at hbe
      rw [hbe] at hn
      exact absurd rfl hn
  have hfinal : (((sortByName (selectedForExport packages settings)).map (fun p =>
      { name := p.name, version := p.version, isDependency := false,
        hash := p.hash, fullName := some (jsOrName p.fullName p.name) })).map pkgTriple)
      = (sortByName (selectedForExport packages settings)).map pkgTriple := by
    rw [List.map_map]
    rfl
  rw [hfinal]
  exact hperm.map pkgTriple

instance : DecidablePred WfHash := fun o =>
  match o with
  | none => isTrue trivial
  | some _ => inferInstanceAs (Decidable (_ ∧ _))

instance (n : String) : DecidablePred (WfFullNameAux n) := fun o =>
  match o with
  | none => isTrue trivial
  | some _ => inferInstanceAs (Decidable (_ ∧ _))

instance : DecidablePred WfFullName := fun p =>
  inferInstanceAs (Decidable (WfFullNameAux p.name p.fullName))

instance : DecidablePred WfIndex := fun _ =>
  inferInstanceAs (Decidable (_ = true))

instance : DecidablePred WfPackage := fun _ =>
  inferInstanceAs (Decidable ((_ ∧ _ ∧ _ ∧ _) ∧ (_ ∧ _) ∧ _ ∧ _))

/-- Witness for the C9 amended theorem: the hashed `flask` record survives
the round trip under the standard format with hashes enabled. -/
theorem c9_roundtrip_wellformed_witness :
    List.Perm
      ((parseRequirementsContent (generateRequirementsContent [flaskHashed]
          standardHashSettings)).map pkgTriple)
      ((selectedForExport [flaskHashed] standardHashSettings).map pkgTriple) :=
  c9_roundtrip_wellformed [flaskHashed] standardHashSettings rfl rfl (by decide) (by decide)
